import Mathlib

set_option linter.unusedVariables false
set_option linter.unusedSectionVars false

/-!
A shallow embedding of the MCTS engine in `alphago/mcts_tree.py`.

Python dictionaries are embedded as association lists (`List (A × _)`) kept in
insertion order, Python floats as elements of a linear ordered field `K`
(instantiated at `ℚ` or `ℝ` in concrete statements), players as natural
numbers (the engine itself hardwires the two players `1` and `2`).
`np.sqrt` and the float power operator are passed as explicit function
parameters (`Real.sqrt` and `Real.rpow` at `K = ℝ`), and the shared numpy
random source is an oracle `dirichlet : K → ℕ → ℕ → List K` mapping a
concentration parameter, a dimension and the current draw counter to a
sample; each draw advances the counter by one.  Operations that can raise a
Python exception (`ZeroDivisionError`, `ValueError`, `AssertionError`) are
embedded as `Option`-returning functions, with `none` for the raising runs.
-/

variable {S A K B : Type}

/-- First-match association list lookup, the embedding of a Python dict
access `d[k]` (dict keys are unique, so first-match agrees with the dict). -/
def alookup [DecidableEq A] : List (A × B) → A → Option B
  | [], _ => none
  | kv :: rest, a => if kv.1 = a then some kv.2 else alookup rest a

/-- Lookup with a default value, used where the source is only ever called
with the key present. -/
def alookupD [DecidableEq A] (l : List (A × B)) (a : A) (d : B) : B :=
  (alookup l a).getD d

/-- Sum of the values of a dict, `sum(d.values())`. -/
def sumValues [AddCommMonoid K] (l : List (A × K)) : K :=
  (l.map Prod.snd).sum

/-- Maximum of the values of a dict, `max(d.values())`; `0` on the empty
list, where Python raises instead (callers guard that case). -/
def maxValues [LinearOrder K] [Zero K] : List (A × K) → K
  | [] => 0
  | kv :: rest => rest.foldl (fun m x => max m x.2) kv.2

/-- Minimum of the values of a dict, `min(d.values())`; `0` on the empty
list, where Python raises instead (callers guard that case). -/
def minValues [LinearOrder K] [Zero K] : List (A × K) → K
  | [] => 0
  | kv :: rest => rest.foldl (fun m x => min m x.2) kv.2

/-- Python's `max(d, key=d.get)`: the first key attaining the maximal value.
The accumulator is replaced only on a strictly larger value, exactly like
CPython's `max`. -/
def maxKeyAux [LinearOrder K] : A × K → List (A × K) → A
  | best, [] => best.1
  | best, kv :: rest => if best.2 < kv.2 then maxKeyAux kv rest else maxKeyAux best rest

/-- `max` of an empty sequence raises in Python, hence the `Option`. -/
def maxKey [LinearOrder K] : List (A × K) → Option A
  | [] => none
  | kv :: rest => some (maxKeyAux kv rest)

/-- One vertex of the Monte Carlo search tree (`class MCTSNode`): the game
state, the player to act, the terminal flag, the statistics `Q` (mean action
value), `W` (cumulative action value), `N` (visit count), the children dict
and the prior probability dict. -/
inductive MCTSNode (S A K : Type) : Type where
  | mk (game_state : S) (player : ℕ) (is_terminal : Bool) (q w n : K)
      (children : List (A × MCTSNode S A K)) (prior_probs : List (A × K))

namespace MCTSNode

def game_state : MCTSNode S A K → S
  | mk s _ _ _ _ _ _ _ => s

def player : MCTSNode S A K → ℕ
  | mk _ p _ _ _ _ _ _ => p

def is_terminal : MCTSNode S A K → Bool
  | mk _ _ t _ _ _ _ _ => t

def Q : MCTSNode S A K → K
  | mk _ _ _ q _ _ _ _ => q

def W : MCTSNode S A K → K
  | mk _ _ _ _ w _ _ _ => w

def N : MCTSNode S A K → K
  | mk _ _ _ _ _ n _ _ => n

def children : MCTSNode S A K → List (A × MCTSNode S A K)
  | mk _ _ _ _ _ _ ch _ => ch

def prior_probs : MCTSNode S A K → List (A × K)
  | mk _ _ _ _ _ _ _ pr => pr

/-- `MCTSNode.__init__`: fresh statistics `Q = W = N = 0`, no children, no
prior probabilities. -/
def init [Zero K] (game_state : S) (player : ℕ) (is_terminal : Bool) : MCTSNode S A K :=
  mk game_state player is_terminal 0 0 0 [] []

/-- `is_leaf`: whether the children dict is empty. -/
def is_leaf (node : MCTSNode S A K) : Bool :=
  node.children.isEmpty

/-- `MCTSNode.expand`: store the prior probabilities and create one fresh
child per action of `child_states`, looking up its player and terminal flag
in the companion dicts (the source indexes `child_players[action]` and
`child_terminals[action]`). -/
def expand [DecidableEq A] [Zero K] (node : MCTSNode S A K)
    (prior_probs : List (A × K)) (child_states : List (A × S))
    (child_players : List (A × ℕ)) (child_terminals : List (A × Bool)) :
    MCTSNode S A K :=
  match node with
  | mk s p t q w n _ _ =>
      mk s p t q w n
        (child_states.map fun as =>
          (as.1, init as.2 (alookupD child_players as.1 0)
            (alookupD child_terminals as.1 false)))
        prior_probs

end MCTSNode

/-- `compute_ucb`: for each action `k` in `action_values`, the score
`Q[k] + P[k] / (1 + N[k]) * c_puct * sqrt(sum(N.values()))`, written exactly
in the source's order of operations.  `sq` embeds `np.sqrt`. -/
def compute_ucb [DecidableEq A] [LinearOrderedField K] (sq : K → K)
    (action_values prior_probs action_counts : List (A × K)) (c_puct : K) :
    List (A × K) :=
  let num := sq (sumValues action_counts)
  action_values.map fun kv =>
    (kv.1, kv.2 + alookupD prior_probs kv.1 0 / (1 + alookupD action_counts kv.1 0)
      * c_puct * num)

/-- `mix_dirichlet_noise`: draw one Dirichlet sample of dimension `len(d)`
from the shared random source (advancing the draw counter), then pair it
positionally with the dict entries, returning
`{k: (1 - epsilon) * v + epsilon * noise_k}`. -/
def mix_dirichlet_noise [LinearOrderedField K] (dirichlet : K → ℕ → ℕ → List K)
    (distribution : List (A × K)) (epsilon alpha : K) (rng : ℕ) :
    List (A × K) × ℕ :=
  let noise := dirichlet alpha distribution.length rng
  (List.zipWith (fun kv nz => (kv.1, (1 - epsilon) * kv.2 + epsilon * nz))
    distribution noise, rng + 1)

/-- `normalise_distribution`: divide every value by the total.  On a
nonempty dict with zero total the first division raises `ZeroDivisionError`
(`none`); on the empty dict no division is executed and `{}` is returned. -/
def normalise_distribution [LinearOrderedField K] (distribution : List (A × K)) :
    Option (List (A × K)) :=
  let total := sumValues distribution
  match distribution with
  | [] => some []
  | _ :: _ =>
      if total = 0 then none
      else some (distribution.map fun kv => (kv.1, kv.2 / total))

/-- `extremise_distribution`: assert `tau > 0`, assert `min(values) ≥ 0`
(raising `ValueError` on an empty dict), rescale by the maximum value
(raising `ZeroDivisionError` when it is zero), raise to the power `1 / tau`
(`powf` embeds the float power operator) and renormalise by the total of the
powered values (raising when that total is zero). -/
def extremise_distribution [DecidableEq A] [LinearOrderedField K]
    (powf : K → K → K) (distribution : List (A × K)) (tau : K) :
    Option (List (A × K)) :=
  if ¬ 0 < tau then none
  else
    match distribution with
    | [] => none
    | _ :: _ =>
        if ¬ 0 ≤ minValues distribution then none
        else
          let max_value := maxValues distribution
          if max_value = 0 then none
          else
            let rescaled := distribution.map fun kv => (kv.1, kv.2 / max_value)
            let total := sumValues (rescaled.map fun kv => (kv.1, powf kv.2 (1 / tau)))
            if total = 0 then none
            else some (rescaled.map fun kv => (kv.1, powf kv.2 (1 / tau) / total))

/-- One round of scoring inside the `select` loop: build the `Q` and `N`
dicts of the node's children, mix the node's own prior probabilities with
fresh Dirichlet noise (the draw taken at counter `rng`), and hand all three
dicts to `compute_ucb`. -/
def selUCB [DecidableEq A] [LinearOrderedField K] (dirichlet : K → ℕ → ℕ → List K)
    (sq : K → K) (c_puct epsilon alpha : K) (node : MCTSNode S A K) (rng : ℕ) :
    List (A × K) :=
  compute_ucb sq (node.children.map fun ac => (ac.1, ac.2.Q))
    (mix_dirichlet_noise dirichlet node.prior_probs epsilon alpha rng).1
    (node.children.map fun ac => (ac.1, ac.2.N)) c_puct

/-- The `select` walk: starting from a node, repeatedly score the children
with `selUCB` (mixing the current node's priors with a fresh Dirichlet
draw), take the action of maximal score via `max(ucb, key=ucb.get)` and
descend into `children[action]`, until a node with no children is reached.
Returns the node path, the action path and the advanced draw counter.  The
two `none` arms are unreachable for nonempty children (`max` of a nonempty
dict, and a dict access with a key taken from that dict). -/
def select [DecidableEq A] [LinearOrderedField K] (dirichlet : K → ℕ → ℕ → List K)
    (sq : K → K) (c_puct epsilon alpha : K) :
    MCTSNode S A K → ℕ → List (MCTSNode S A K) × List A × ℕ
  | node, rng =>
    match node.children with
    | [] => ([node], [], rng)
    | _ :: _ =>
      match maxKey (selUCB dirichlet sq c_puct epsilon alpha node rng) with
      | none =>
          ([node], [],
            (mix_dirichlet_noise dirichlet node.prior_probs epsilon alpha rng).2)
      | some action =>
        match h : alookup node.children action with
        | none =>
            ([node], [],
              (mix_dirichlet_noise dirichlet node.prior_probs epsilon alpha rng).2)
        | some child =>
          (node :: (select dirichlet sq c_puct epsilon alpha child
              (mix_dirichlet_noise dirichlet node.prior_probs epsilon alpha rng).2).1,
           action :: (select dirichlet sq c_puct epsilon alpha child
              (mix_dirichlet_noise dirichlet node.prior_probs epsilon alpha rng).2).2.1,
           (select dirichlet sq c_puct epsilon alpha child
              (mix_dirichlet_noise dirichlet node.prior_probs epsilon alpha rng).2).2.2)
termination_by node _ => sizeOf node
decreasing_by
  have hmem : (action, child) ∈ node.children := by
    have h2 := h
    generalize node.children = l at h2
    induction l with
    | nil => simp [alookup] at h2
    | cons kv rest2 ih =>
        cases kv with
        | mk k v =>
          simp only [alookup] at h2
          by_cases hk : k = action
          · subst hk
            rw [if_pos rfl] at h2
            injection h2 with h3
            subst h3
            exact List.mem_cons_self _ _
          · rw [if_neg hk] at h2
            exact List.mem_cons_of_mem _ (ih h2)
  cases node with
  | mk s p t q w n ch pr =>
      simp only [MCTSNode.children] at hmem
      have h1 := List.sizeOf_lt_of_mem hmem
      have h2 : sizeOf child < sizeOf (action, child) := by
        simp only [Prod.mk.sizeOf_spec]
        omega
      simp only [MCTSNode.mk.sizeOf_spec]
      omega

/-- Python truthiness of the `parent_player` variable in `backup`: `None`
and the player `0` are falsy, any other player is truthy. -/
def pyTruthy : Option ℕ → Bool
  | none => false
  | some p => p != 0

/-- Rewrite the entry of one key of a children dict with `f`, leaving every
other entry unchanged: the list form of an in-place update of one child. -/
def modifyChild [DecidableEq A] (l : List (A × MCTSNode S A K)) (a : A)
    (f : MCTSNode S A K → MCTSNode S A K) : List (A × MCTSNode S A K) :=
  l.map fun kc => if kc.1 = a then (kc.1, f kc.2) else kc

/-- The body of the `backup` loop for one node: increment the visit count,
and when `parent_player` is truthy also add `values[parent_player]` to the
cumulative value and recompute the mean value with the new count. -/
def backup_node_update [LinearOrderedField K] (values : ℕ → K)
    (parent_player : Option ℕ) (node : MCTSNode S A K) : MCTSNode S A K :=
  match node with
  | .mk s p t q w n ch pr =>
      if pyTruthy parent_player then
        .mk s p t ((w + values (parent_player.getD 0)) / (n + 1))
          (w + values (parent_player.getD 0)) (n + 1) ch pr
      else .mk s p t q w (n + 1) ch pr

/-- The `backup` loop over the node list, threading `parent_player`, which
starts as `None` and afterwards is the player of the previous node. -/
def backup_list [LinearOrderedField K] (values : ℕ → K) :
    Option ℕ → List (MCTSNode S A K) → List (MCTSNode S A K)
  | _, [] => []
  | pp, node :: rest =>
      backup_node_update values pp node :: backup_list values (some node.player) rest

/-- `backup(nodes, values)` on the list of node values handed to it. -/
def backup [LinearOrderedField K] (nodes : List (MCTSNode S A K))
    (values : ℕ → K) : List (MCTSNode S A K) :=
  backup_list values none nodes

/-- The in-place effect of `backup(nodes, values)` on the tree holding the
path nodes: the path is addressed by its action list, each node along it is
updated by `backup_node_update` with the previous node's player (starting
from `None` at the path head), and all off-path nodes are untouched. -/
def backup_tree [DecidableEq A] [LinearOrderedField K] (values : ℕ → K) :
    Option ℕ → MCTSNode S A K → List A → MCTSNode S A K
  | pp, node, [] => backup_node_update values pp node
  | pp, node, a :: rest =>
      match backup_node_update values pp node with
      | .mk s p t q w n ch pr =>
          .mk s p t q w n
            (modifyChild ch a fun c => backup_tree values (some node.player) c rest)
            pr

/-- Replace the node addressed by the action path with a new node (the
in-place effect of `leaf.expand(...)` seen from the root). -/
def replaceAt [DecidableEq A] :
    MCTSNode S A K → List A → MCTSNode S A K → MCTSNode S A K
  | _, [], newNode => newNode
  | .mk s p t q w n ch pr, a :: rest, newNode =>
      .mk s p t q w n
        (modifyChild ch a fun c => replaceAt c rest newNode)
        pr

/-- Walk down the tree along an action list through the children dicts. -/
def follow [DecidableEq A] : MCTSNode S A K → List A → Option (MCTSNode S A K)
  | node, [] => some node
  | node, a :: rest =>
      match alookup node.children a with
      | some child => follow child rest
      | none => none

/-- The game collaborator consumed by the driver: legal actions with their
successor states, the player to act, the terminal test and the utility map
of a terminal state (a dict from players to values, embedded totally). -/
structure GameM (S A K : Type) where
  legal_actions : S → List (A × S)
  current_player : S → ℕ
  is_terminal : S → Bool
  utility : S → ℕ → K

/-- One iteration of the `mcts` loop: select a path; if its last node is
terminal take the value map from the game's utility, otherwise evaluate the
leaf with the estimator, build the zero-sum value map for the two players,
normalise the estimator's prior (aborting on its `ZeroDivisionError`) and
expand the leaf; finally back the value map up along the path. -/
def mctsStep [DecidableEq A] [LinearOrderedField K] (game : GameM S A K)
    (estimator : S → List (A × K) × K) (dirichlet : K → ℕ → ℕ → List K)
    (sq : K → K) (c_puct epsilon alpha : K) :
    MCTSNode S A K × ℕ → Option (MCTSNode S A K × ℕ)
  | (tree, rng) =>
    let sel := select dirichlet sq c_puct epsilon alpha tree rng
    let actions := sel.2.1
    let rng2 := sel.2.2
    let leaf := sel.1.getLastD tree
    if leaf.is_terminal then
      let values := game.utility leaf.game_state
      some (backup_tree values none tree actions, rng2)
    else
      let value := (estimator leaf.game_state).2
      let player := game.current_player leaf.game_state
      let other_player : ℕ := if player = 2 then 1 else 2
      let values : ℕ → K := fun pl =>
        if pl = player then value else if pl = other_player then -value else 0
      let child_states := game.legal_actions leaf.game_state
      match normalise_distribution (estimator leaf.game_state).1 with
      | none => none
      | some prior2 =>
          let child_players := child_states.map fun as => (as.1, game.current_player as.2)
          let child_terminals := child_states.map fun as => (as.1, game.is_terminal as.2)
          let leaf2 := leaf.expand prior2 child_states child_players child_terminals
          some (backup_tree values none (replaceAt tree actions leaf2) actions, rng2)

/-- Run a step function a fixed number of times, stopping at the first
raised exception. -/
def runLoop (step : MCTSNode S A K × ℕ → Option (MCTSNode S A K × ℕ)) :
    ℕ → MCTSNode S A K × ℕ → Option (MCTSNode S A K × ℕ)
  | 0, st => some st
  | k + 1, st =>
      match step st with
      | none => none
      | some st2 => runLoop step k st2

/-- The `for i in range(mcts_iters)` loop of `mcts`, returning the final
state of the (mutated in place) starting node together with the final draw
counter. -/
def mctsRun [DecidableEq A] [LinearOrderedField K] (dirichlet : K → ℕ → ℕ → List K)
    (sq : K → K) (starting_node : MCTSNode S A K) (game : GameM S A K)
    (estimator : S → List (A × K) × K) (mcts_iters : ℕ)
    (c_puct epsilon alpha : K) (rng : ℕ) : Option (MCTSNode S A K × ℕ) :=
  runLoop (mctsStep game estimator dirichlet sq c_puct epsilon alpha)
    mcts_iters (starting_node, rng)

/-- The action count dict `{action: child.N}` collected from a node's
children at the end of the search. -/
def childNCounts (node : MCTSNode S A K) : List (A × K) :=
  node.children.map fun kc => (kc.1, kc.2.N)

/-- Sum of the visit counts of a node's direct children. -/
def childrenNSum [AddCommMonoid K] (node : MCTSNode S A K) : K :=
  sumValues (childNCounts node)

/-- `mcts(starting_node, game, estimator, mcts_iters, c_puct, tau, ...)`:
run the loop, then convert the root's children visit counts with
`extremise_distribution`.  Any exception along the way is `none`. -/
def mcts [DecidableEq A] [LinearOrderedField K] (dirichlet : K → ℕ → ℕ → List K)
    (sq : K → K) (powf : K → K → K) (starting_node : MCTSNode S A K)
    (game : GameM S A K) (estimator : S → List (A × K) × K) (mcts_iters : ℕ)
    (c_puct tau epsilon alpha : K) (rng : ℕ) : Option (List (A × K)) :=
  match mctsRun dirichlet sq starting_node game estimator mcts_iters
      c_puct epsilon alpha rng with
  | none => none
  | some st => extremise_distribution powf (childNCounts st.1) tau

/-- The data-model invariant of §3: the mean value is the cumulative value
divided by the visit count whenever the visit count is nonzero. -/
def meanInvariant [LinearOrderedField K] (node : MCTSNode S A K) : Prop :=
  node.N ≠ 0 → node.Q = node.W / node.N

/-- What one `select` call computes, stated against the unmodified input
tree: the node path is one longer than the action path; the node at
position `i` of the returned path is exactly the tree's own node reached by
following the first `i` actions (so `select` hands back unmodified nodes of
the input tree, with their original `prior_probs`); the path ends at the
node reached by the full action list; and the action at position `i` is the
arg-max of the scores of the station at depth `i`, computed from that
station's own priors mixed with the Dirichlet draw taken at counter
`rng + i` (one fresh draw per visited non-leaf node). -/
def SelectSpec [DecidableEq A] [LinearOrderedField K] (dirichlet : K → ℕ → ℕ → List K)
    (sq : K → K) (c_puct epsilon alpha : K) (node : MCTSNode S A K) (rng : ℕ) : Prop :=
  let sel := select dirichlet sq c_puct epsilon alpha node rng
  sel.1.length = sel.2.1.length + 1 ∧
  (∀ i, i < sel.1.length → follow node (sel.2.1.take i) = sel.1.get? i) ∧
  follow node sel.2.1 = some (sel.1.getLastD node) ∧
  (∀ i, i < sel.2.1.length →
    ∃ st act, sel.2.1.get? i = some act ∧ follow node (sel.2.1.take i) = some st ∧
      st.children ≠ [] ∧
      maxKey (selUCB dirichlet sq c_puct epsilon alpha st (rng + i)) = some act)

/-- A tiny ladder game over `ℚ` used in concrete statements: from state `s`
the single action `0` leads to state `s + 1`, states after the first move
are terminal, and player `1` always acts. -/
def exGame : GameM ℕ ℕ ℚ :=
  ⟨fun s => [(0, s + 1)], fun _ => 1, fun s => decide (0 < s), fun _ _ => 0⟩

/-- An estimator for `exGame`: prior weight `1` on the single action, value
`0`. -/
def exEstimator : ℕ → List (ℕ × ℚ) × ℚ := fun _ => ([(0, 1)], 0)

/-- A deterministic stand-in for the Dirichlet oracle over `ℚ` (the sampled
vector is all zeros, of the requested dimension). -/
def exDirichlet : ℚ → ℕ → ℕ → List ℚ := fun _ n _ => List.replicate n 0

/-- A stand-in for `np.sqrt` over `ℚ`; in the concrete runs below it is only
applied to `0`, where the square root is `0`. -/
def exSqrt : ℚ → ℚ := fun _ => 0

/-- A stand-in for the float power over `ℚ`; in the concrete runs below the
exponent is always `1`, where the power is the identity. -/
def exPow : ℚ → ℚ → ℚ := fun v _ => v

/-- A freshly created root for `exGame`: state `0`, player `1`, not
terminal. -/
def exRoot : MCTSNode ℕ ℕ ℚ := MCTSNode.init 0 1 false

/-- The tree left behind by two iterations of the search on `exRoot`. -/
def exTree2 : MCTSNode ℕ ℕ ℚ :=
  MCTSNode.mk 0 1 false 0 0 2
    [(0, MCTSNode.mk 1 1 true 0 0 1 [] [])] [(0, 1)]

/-- A ladder game over `ℝ` (no terminal states), for statements that need
the genuine `Real.sqrt` / `Real.rpow` instantiation. -/
def exGameR : GameM ℕ ℕ ℝ :=
  ⟨fun s => [(0, s + 1)], fun _ => 1, fun _ => false, fun _ _ => 0⟩

/-- An estimator over `ℝ` matching `exEstimator`. -/
def exEstimatorR : ℕ → List (ℕ × ℝ) × ℝ := fun _ => ([(0, 1)], 0)

/-- A deterministic stand-in for the Dirichlet oracle over `ℝ`. -/
def exDirichletR : ℝ → ℕ → ℕ → List ℝ := fun _ n _ => List.replicate n 0

/-- A root that already owns an expanded child with one recorded visit, as
left behind by an earlier search whose subtree is being reused. -/
def exRootExpandedR : MCTSNode ℕ ℕ ℝ :=
  MCTSNode.mk 0 1 false 0 0 1 [(0, MCTSNode.mk 1 1 false 0 0 1 [] [])] [(0, 1)]

/-- The unvisited terminal child of `exRoot` created by the first search
iteration on `exGame`. -/
def exChild : MCTSNode ℕ ℕ ℚ := MCTSNode.mk 1 1 true 0 0 0 [] []

/-- The tree after one search iteration on `exRoot`: the root expanded and
visited once, its child not yet visited. -/
def exRoot1 : MCTSNode ℕ ℕ ℚ :=
  MCTSNode.mk 0 1 false 0 0 1 [(0, exChild)] [(0, 1)]

variable [DecidableEq A] [LinearOrderedField K]

@[simp] theorem MCTSNode.game_state_mk (s : S) (p : ℕ) (t : Bool) (q w n : K) (ch pr) :
    (MCTSNode.mk s p t q w n ch pr : MCTSNode S A K).game_state = s := rfl

@[simp] theorem MCTSNode.player_mk (s : S) (p : ℕ) (t : Bool) (q w n : K) (ch pr) :
    (MCTSNode.mk s p t q w n ch pr : MCTSNode S A K).player = p := rfl

@[simp] theorem MCTSNode.is_terminal_mk (s : S) (p : ℕ) (t : Bool) (q w n : K) (ch pr) :
    (MCTSNode.mk s p t q w n ch pr : MCTSNode S A K).is_terminal = t := rfl

@[simp] theorem MCTSNode.Q_mk (s : S) (p : ℕ) (t : Bool) (q w n : K) (ch pr) :
    (MCTSNode.mk s p t q w n ch pr : MCTSNode S A K).Q = q := rfl

@[simp] theorem MCTSNode.W_mk (s : S) (p : ℕ) (t : Bool) (q w n : K) (ch pr) :
    (MCTSNode.mk s p t q w n ch pr : MCTSNode S A K).W = w := rfl

@[simp] theorem MCTSNode.N_mk (s : S) (p : ℕ) (t : Bool) (q w n : K) (ch pr) :
    (MCTSNode.mk s p t q w n ch pr : MCTSNode S A K).N = n := rfl

@[simp] theorem MCTSNode.children_mk (s : S) (p : ℕ) (t : Bool) (q w n : K) (ch pr) :
    (MCTSNode.mk s p t q w n ch pr : MCTSNode S A K).children = ch := rfl

@[simp] theorem MCTSNode.prior_probs_mk (s : S) (p : ℕ) (t : Bool) (q w n : K) (ch pr) :
    (MCTSNode.mk s p t q w n ch pr : MCTSNode S A K).prior_probs = pr := rfl

theorem MCTSNode.expand_def (node : MCTSNode S A K) (pr : List (A × K))
    (cs : List (A × S)) (cp : List (A × ℕ)) (ct : List (A × Bool)) :
    node.expand pr cs cp ct =
      MCTSNode.mk node.game_state node.player node.is_terminal node.Q node.W node.N
        (cs.map fun as =>
          (as.1, MCTSNode.init as.2 (alookupD cp as.1 0) (alookupD ct as.1 false)))
        pr := by
  cases node
  rfl

@[simp] theorem alookup_nil (a : A) : alookup ([] : List (A × B)) a = none := rfl

theorem alookup_cons (kv : A × B) (l : List (A × B)) (a : A) :
    alookup (kv :: l) a = if kv.1 = a then some kv.2 else alookup l a := rfl

theorem alookup_map_value {C : Type} (f : A → B → C) (l : List (A × B)) (a : A) :
    alookup (l.map fun kv => (kv.1, f kv.1 kv.2)) a = (alookup l a).map (f a) := by
  induction l with
  | nil => rfl
  | cons kv rest ih =>
      by_cases hk : kv.1 = a
      · subst hk
        simp [alookup_cons, alookup]
      · simp [alookup_cons, alookup, hk, ih]

theorem alookup_mem {l : List (A × B)} {a : A} {b : B} (h : alookup l a = some b) :
    (a, b) ∈ l := by
  induction l with
  | nil => simp [alookup] at h
  | cons kv rest ih =>
      rw [alookup_cons] at h
      by_cases hk : kv.1 = a
      · subst hk
        rw [if_pos rfl] at h
        injection h with h2
        subst h2
        exact List.mem_cons_self _ _
      · rw [if_neg hk] at h
        exact List.mem_cons_of_mem _ (ih h)

theorem alookup_isSome_of_mem_keys {l : List (A × B)} {a : A}
    (h : a ∈ l.map Prod.fst) : ∃ b, alookup l a = some b := by
  induction l with
  | nil => simp at h
  | cons kv rest ih =>
      by_cases hk : kv.1 = a
      · exact ⟨kv.2, by rw [alookup_cons, if_pos hk]⟩
      · rw [List.map_cons, List.mem_cons] at h
        rcases h with h | h
        · exact absurd h.symm hk
        · obtain ⟨b, hb⟩ := ih h
          exact ⟨b, by rw [alookup_cons, if_neg hk, hb]⟩

theorem modifyChild_keys (l : List (A × MCTSNode S A K)) (a : A)
    (f : MCTSNode S A K → MCTSNode S A K) :
    (modifyChild l a f).map Prod.fst = l.map Prod.fst := by
  induction l with
  | nil => rfl
  | cons kv rest ih =>
      by_cases hk : kv.1 = a <;>
        simp [modifyChild, hk] <;>
        simpa [modifyChild] using ih

theorem modifyChild_id (l : List (A × MCTSNode S A K)) (a : A)
    (f : MCTSNode S A K → MCTSNode S A K) (h : ∀ kc ∈ l, kc.1 ≠ a) :
    modifyChild l a f = l := by
  induction l with
  | nil => rfl
  | cons kv rest ih =>
      have hk : kv.1 ≠ a := h kv (List.mem_cons_self _ _)
      have ih2 := ih fun kc hkc => h kc (List.mem_cons_of_mem _ hkc)
      simp only [modifyChild] at ih2 ⊢
      simp only [List.map_cons, if_neg hk, ih2]

theorem alookup_modifyChild (l : List (A × MCTSNode S A K)) (a b : A)
    (f : MCTSNode S A K → MCTSNode S A K) :
    alookup (modifyChild l a f) b =
      if b = a then (alookup l a).map f else alookup l b := by
  induction l with
  | nil => by_cases hb : b = a <;> simp [modifyChild, hb]
  | cons kv rest ih =>
      simp only [modifyChild, List.map_cons] at ih ⊢
      by_cases hka : kv.1 = a
      · subst hka
        by_cases hb : b = kv.1
        · subst hb
          simp [alookup_cons]
        · have hb2 : ¬ kv.1 = b := fun h2 => hb h2.symm
          simp [alookup_cons, hb, hb2, ih]
      · by_cases hb : b = a
        · subst hb
          have hb2 : ¬ kv.1 = b := hka
          simp [alookup_cons, hka, hb2, ih]
        · by_cases hkb : kv.1 = b
          · simp [alookup_cons, hka, hkb, hb, ih]
          · simp [alookup_cons, hka, hkb, hb, ih]

theorem backup_node_update_N (values : ℕ → K) (pp : Option ℕ) (node : MCTSNode S A K) :
    (backup_node_update values pp node).N = node.N + 1 := by
  cases node
  simp only [backup_node_update]
  split <;> simp

theorem backup_node_update_static (values : ℕ → K) (pp : Option ℕ) (node : MCTSNode S A K) :
    (backup_node_update values pp node).game_state = node.game_state ∧
    (backup_node_update values pp node).player = node.player ∧
    (backup_node_update values pp node).is_terminal = node.is_terminal ∧
    (backup_node_update values pp node).children = node.children ∧
    (backup_node_update values pp node).prior_probs = node.prior_probs := by
  cases node
  simp only [backup_node_update]
  split <;> simp

theorem backup_node_update_truthy (values : ℕ → K) (pp : Option ℕ)
    (node : MCTSNode S A K) (h : pyTruthy pp = true) :
    (backup_node_update values pp node).W = node.W + values (pp.getD 0) ∧
    (backup_node_update values pp node).Q =
      (node.W + values (pp.getD 0)) / (node.N + 1) := by
  cases node
  simp [backup_node_update, h]

theorem backup_node_update_falsy (values : ℕ → K) (pp : Option ℕ)
    (node : MCTSNode S A K) (h : pyTruthy pp = false) :
    (backup_node_update values pp node).W = node.W ∧
    (backup_node_update values pp node).Q = node.Q := by
  cases node
  simp [backup_node_update, h]

theorem backup_tree_nil (values : ℕ → K) (pp : Option ℕ) (node : MCTSNode S A K) :
    backup_tree values pp node [] = backup_node_update values pp node := rfl

theorem backup_tree_cons (values : ℕ → K) (pp : Option ℕ) (node : MCTSNode S A K)
    (a : A) (rest : List A) :
    backup_tree values pp node (a :: rest) =
      MCTSNode.mk node.game_state node.player node.is_terminal
        (backup_node_update values pp node).Q (backup_node_update values pp node).W
        (node.N + 1)
        (modifyChild node.children a fun c =>
          backup_tree values (some node.player) c rest)
        node.prior_probs := by
  cases node with
  | mk s p t q w n ch pr =>
      by_cases ht : pyTruthy pp = true
      · simp [backup_tree, backup_node_update, ht]
      · simp [backup_tree, backup_node_update, ht]

theorem backup_tree_N (values : ℕ → K) (pp : Option ℕ) (node : MCTSNode S A K)
    (as : List A) : (backup_tree values pp node as).N = node.N + 1 := by
  cases as with
  | nil => rw [backup_tree_nil, backup_node_update_N]
  | cons a rest => rw [backup_tree_cons]; simp

theorem replaceAt_nil (node newNode : MCTSNode S A K) :
    replaceAt node [] newNode = newNode := by
  cases node <;> rfl

theorem replaceAt_cons (node newNode : MCTSNode S A K) (a : A) (rest : List A) :
    replaceAt node (a :: rest) newNode =
      MCTSNode.mk node.game_state node.player node.is_terminal node.Q node.W node.N
        (modifyChild node.children a fun c => replaceAt c rest newNode)
        node.prior_probs := by
  cases node
  rfl

theorem follow_nil (node : MCTSNode S A K) : follow node [] = some node := rfl

theorem follow_cons_some (node child : MCTSNode S A K) (a : A) (rest : List A)
    (h : alookup node.children a = some child) :
    follow node (a :: rest) = follow child rest := by
  simp only [follow, h]

theorem replaceAt_N_of_follow (newNode : MCTSNode S A K) :
    ∀ (as : List A) (node leafN : MCTSNode S A K), follow node as = some leafN →
      newNode.N = leafN.N → (replaceAt node as newNode).N = node.N
  | [], node, leafN, hf, hN => by
      rw [follow_nil] at hf
      injection hf with hf
      rw [replaceAt_nil, hN, hf]
  | a :: rest, node, leafN, hf, hN => by
      rw [replaceAt_cons]
      simp

theorem sum_modifyChild (l : List (A × MCTSNode S A K)) (a : A)
    (c : MCTSNode S A K) (f : MCTSNode S A K → MCTSNode S A K)
    (hnd : (l.map Prod.fst).Nodup) (hlk : alookup l a = some c) :
    ((modifyChild l a f).map fun kc => kc.2.N).sum =
      ((l.map fun kc => kc.2.N).sum) - c.N + (f c).N := by
  induction l with
  | nil => simp [alookup] at hlk
  | cons kv rest ih =>
      rw [alookup_cons] at hlk
      rw [List.map_cons, List.nodup_cons] at hnd
      by_cases hk : kv.1 = a
      · rw [if_pos hk] at hlk
        injection hlk with hlk
        subst hlk
        have hrest : ∀ kc ∈ rest, kc.1 ≠ a := by
          intro kc hkc hka
          exact hnd.1 (hk ▸ hka ▸ List.mem_map_of_mem Prod.fst hkc)
        rw [show modifyChild (kv :: rest) a f =
            (kv.1, f kv.2) :: modifyChild rest a f by simp [modifyChild, hk],
          modifyChild_id rest a f hrest]
        simp only [List.map_cons, List.sum_cons]
        ring
      · rw [if_neg hk] at hlk
        rw [show modifyChild (kv :: rest) a f = kv :: modifyChild rest a f by
            simp [modifyChild, hk]]
        simp only [List.map_cons, List.sum_cons]
        rw [ih hnd.2 hlk]
        ring

theorem maxKeyAux_mem (best : A × K) (l : List (A × K)) :
    maxKeyAux best l ∈ (best :: l).map Prod.fst := by
  induction l generalizing best with
  | nil => simp [maxKeyAux]
  | cons kv rest ih =>
      rw [maxKeyAux]
      by_cases h : best.2 < kv.2
      · rw [if_pos h]
        have h2 := ih kv
        simp only [List.map_cons, List.mem_cons] at h2 ⊢
        tauto
      · rw [if_neg h]
        have h2 := ih best
        simp only [List.map_cons, List.mem_cons] at h2 ⊢
        tauto

theorem maxKey_mem {l : List (A × K)} {a : A} (h : maxKey l = some a) :
    a ∈ l.map Prod.fst := by
  cases l with
  | nil => simp [maxKey] at h
  | cons kv rest =>
      rw [maxKey] at h
      injection h with h
      subst h
      exact maxKeyAux_mem kv rest

theorem compute_ucb_keys (sq : K → K) (av pp ac : List (A × K)) (c_puct : K) :
    (compute_ucb sq av pp ac c_puct).map Prod.fst = av.map Prod.fst := by
  simp only [compute_ucb, List.map_map]
  rfl

theorem selUCB_keys (dirichlet : K → ℕ → ℕ → List K) (sq : K → K)
    (c_puct epsilon alpha : K) (node : MCTSNode S A K) (rng : ℕ) :
    (selUCB dirichlet sq c_puct epsilon alpha node rng).map Prod.fst =
      node.children.map Prod.fst := by
  rw [selUCB, compute_ucb_keys, List.map_map]
  rfl

theorem MCTSNode.sizeOf_pos (node : MCTSNode S A K) : 0 < sizeOf node := by
  cases node
  simp only [MCTSNode.mk.sizeOf_spec]
  omega

theorem sizeOf_lt_of_alookup {node : MCTSNode S A K} {a : A} {c : MCTSNode S A K}
    (h : alookup node.children a = some c) : sizeOf c < sizeOf node := by
  have hmem := alookup_mem h
  cases node with
  | mk s p t q w n ch pr =>
      simp only [MCTSNode.children_mk] at hmem
      have h1 := List.sizeOf_lt_of_mem hmem
      simp only [Prod.mk.sizeOf_spec] at h1
      simp only [MCTSNode.mk.sizeOf_spec]
      omega

theorem mix_rng (dirichlet : K → ℕ → ℕ → List K) (d : List (A × K))
    (epsilon alpha : K) (rng : ℕ) :
    (mix_dirichlet_noise dirichlet d epsilon alpha rng).2 = rng + 1 := rfl

theorem select_cases (dirichlet : K → ℕ → ℕ → List K) (sq : K → K)
    (c_puct epsilon alpha : K) (node : MCTSNode S A K) (rng : ℕ) :
    (node.children = [] ∧
      select dirichlet sq c_puct epsilon alpha node rng = ([node], [], rng)) ∨
    (∃ act child, node.children ≠ [] ∧
      maxKey (selUCB dirichlet sq c_puct epsilon alpha node rng) = some act ∧
      alookup node.children act = some child ∧
      select dirichlet sq c_puct epsilon alpha node rng =
        (node :: (select dirichlet sq c_puct epsilon alpha child (rng + 1)).1,
         act :: (select dirichlet sq c_puct epsilon alpha child (rng + 1)).2.1,
         (select dirichlet sq c_puct epsilon alpha child (rng + 1)).2.2)) := by
  have hsel := select.eq_1 dirichlet sq c_puct epsilon alpha node rng
  cases hch : node.children with
  | nil =>
      rw [hch] at hsel
      exact Or.inl ⟨rfl, hsel⟩
  | cons c0 cs =>
      rw [hch] at hsel
      right
      have hne : selUCB dirichlet sq c_puct epsilon alpha node rng ≠ [] := by
        rw [selUCB, hch]
        simp [compute_ucb]
      split at hsel
      · next heq0 => simp at heq0
      · next heq0 =>
          split at hsel
          · next heq =>
              exfalso
              cases hu : selUCB dirichlet sq c_puct epsilon alpha node rng with
              | nil => exact hne hu
              | cons u us => rw [hu, maxKey] at heq; simp at heq
          · next act heq =>
              split at hsel
              · next halo =>
                  exfalso
                  have hk : act ∈ (selUCB dirichlet sq c_puct epsilon alpha node rng).map
                      Prod.fst := maxKey_mem heq
                  rw [selUCB_keys] at hk
                  obtain ⟨b, hb⟩ := alookup_isSome_of_mem_keys hk
                  rw [hch, halo] at hb
                  simp at hb
              · next child halo =>
                  exact ⟨act, child, by simp, heq, halo, hsel⟩

theorem select_main (dirichlet : K → ℕ → ℕ → List K) (sq : K → K)
    (c_puct epsilon alpha : K) :
    ∀ (m : ℕ) (node : MCTSNode S A K) (rng : ℕ), sizeOf node ≤ m →
      SelectSpec dirichlet sq c_puct epsilon alpha node rng := by
  intro m
  induction m with
  | zero =>
      intro node rng h
      have := MCTSNode.sizeOf_pos node
      omega
  | succ m ih =>
      intro node rng hm
      rcases select_cases dirichlet sq c_puct epsilon alpha node rng with
        ⟨hch, heq⟩ | ⟨act, child, hch, hmax, halo, heq⟩
      · simp only [SelectSpec, heq]
        refine ⟨rfl, ?_, ?_, ?_⟩
        · intro i hi
          cases i with
          | zero => simp [follow_nil]
          | succ j => simp at hi
        · simp [follow_nil]
        · intro i hi
          simp at hi
      · have hsz : sizeOf child ≤ m := by
          have := sizeOf_lt_of_alookup halo
          omega
        have IH := ih child (rng + 1) hsz
        simp only [SelectSpec] at IH
        obtain ⟨IH1, IH2, IH3, IH4⟩ := IH
        have hhead : (select dirichlet sq c_puct epsilon alpha child (rng + 1)).1.get? 0
            = some child := by
          have h0 := IH2 0 (by omega)
          rw [List.take_zero, follow_nil] at h0
          exact h0.symm
        simp only [SelectSpec, heq]
        refine ⟨by simp [IH1], ?_, ?_, ?_⟩
        · intro i hi
          cases i with
          | zero => simp [follow_nil]
          | succ j =>
              simp only [List.length_cons, Nat.succ_lt_succ_iff] at hi
              rw [List.take_succ_cons, follow_cons_some node child act _ halo,
                List.get?_cons_succ]
              exact IH2 j (by omega)
        · rw [follow_cons_some node child act _ halo, IH3]
          cases hs : (select dirichlet sq c_puct epsilon alpha child (rng + 1)).1 with
          | nil => rw [hs] at IH1; simp at IH1
          | cons hd tl =>
              simp only [List.getLastD_eq_getLast?, List.getLast?_cons_cons]
              obtain ⟨x, hx⟩ := Option.isSome_iff_exists.mp
                (List.getLast?_isSome.mpr (List.cons_ne_nil hd tl))
              rw [hx]
              rfl
        · intro i hi
          cases i with
          | zero =>
              refine ⟨node, act, by simp, by simp [follow_nil], hch, ?_⟩
              simpa using hmax
          | succ j =>
              simp only [List.length_cons, Nat.succ_lt_succ_iff] at hi
              obtain ⟨st, act2, hget, hfol, hstch, hmax2⟩ := IH4 j hi
              refine ⟨st, act2, ?_, ?_, hstch, ?_⟩
              · rw [List.get?_cons_succ]
                exact hget
              · rw [List.take_succ_cons, follow_cons_some node child act _ halo]
                exact hfol
              · have harith : rng + 1 + j = rng + (j + 1) := by omega
                rw [harith] at hmax2
                exact hmax2

theorem select_spec (dirichlet : K → ℕ → ℕ → List K) (sq : K → K)
    (c_puct epsilon alpha : K) (node : MCTSNode S A K) (rng : ℕ) :
    SelectSpec dirichlet sq c_puct epsilon alpha node rng :=
  select_main dirichlet sq c_puct epsilon alpha (sizeOf node) node rng le_rfl

theorem alookup_map_entry {C : Type} (f : A × B → C) (l : List (A × B)) (a : A) :
    alookup (l.map fun kv => (kv.1, f kv)) a = (alookup l a).map fun b => f (a, b) := by
  induction l with
  | nil => rfl
  | cons kv rest ih =>
      cases kv with
      | mk k v =>
          by_cases hk : k = a
          · subst hk
            simp [alookup_cons]
          · simp [alookup_cons, hk, ih]

theorem alookupD_of_alookup {l : List (A × B)} {a : A} {b : B} (d : B)
    (h : alookup l a = some b) : alookupD l a d = b := by
  simp [alookupD, h]

theorem sumValues_cons (kv : A × K) (l : List (A × K)) :
    sumValues (kv :: l) = kv.2 + sumValues l := by
  simp [sumValues]

theorem sumValues_eq_zero {l : List (A × K)} (h : ∀ kv ∈ l, kv.2 = 0) :
    sumValues l = 0 := by
  induction l with
  | nil => rfl
  | cons kv rest ih =>
      rw [sumValues_cons, h kv (List.mem_cons_self _ _),
        ih fun kc hkc => h kc (List.mem_cons_of_mem _ hkc), add_zero]

theorem sumValues_nonneg {l : List (A × K)} (h : ∀ kv ∈ l, 0 ≤ kv.2) :
    0 ≤ sumValues l := by
  induction l with
  | nil => simp [sumValues]
  | cons kv rest ih =>
      rw [sumValues_cons]
      have h1 := h kv (List.mem_cons_self _ _)
      have h2 := ih fun kc hkc => h kc (List.mem_cons_of_mem _ hkc)
      linarith

theorem sumValues_pos {kv : A × K} {l : List (A × K)}
    (h : ∀ x ∈ kv :: l, 0 < x.2) : 0 < sumValues (kv :: l) := by
  rw [sumValues_cons]
  have h1 := h kv (List.mem_cons_self _ _)
  have h2 : 0 ≤ sumValues l :=
    sumValues_nonneg fun kc hkc => le_of_lt (h kc (List.mem_cons_of_mem _ hkc))
  linarith

theorem sumValues_map_div (l : List (A × K)) (c : K) :
    sumValues (l.map fun kv => (kv.1, kv.2 / c)) = sumValues l / c := by
  induction l with
  | nil => simp [sumValues]
  | cons kv rest ih =>
      simp only [List.map_cons, sumValues_cons] at ih ⊢
      rw [ih, add_div]

theorem foldl_max_ge : ∀ (l : List (A × K)) (i : K),
    i ≤ l.foldl (fun m x => max m x.2) i
  | [], i => le_refl i
  | kv :: rest, i => le_trans (le_max_left i kv.2) (foldl_max_ge rest (max i kv.2))

theorem foldl_max_zero : ∀ (l : List (A × K)) (i : K), i = 0 →
    (∀ x ∈ l, x.2 = 0) → l.foldl (fun m x => max m x.2) i = 0
  | [], i, hi, _ => hi
  | kv :: rest, i, hi, h => by
      rw [List.foldl_cons]
      exact foldl_max_zero rest _
        (by rw [hi, h kv (List.mem_cons_self _ _)]; simp)
        fun x hx => h x (List.mem_cons_of_mem _ hx)

theorem foldl_min_nonneg : ∀ (l : List (A × K)) (i : K), 0 ≤ i →
    (∀ x ∈ l, 0 ≤ x.2) → 0 ≤ l.foldl (fun m x => min m x.2) i
  | [], i, hi, _ => hi
  | kv :: rest, i, hi, h => by
      rw [List.foldl_cons]
      exact foldl_min_nonneg rest _
        (le_min hi (h kv (List.mem_cons_self _ _)))
        fun x hx => h x (List.mem_cons_of_mem _ hx)

theorem maxValues_pos {kv : A × K} {l : List (A × K)}
    (h : ∀ x ∈ kv :: l, 0 < x.2) : 0 < maxValues (kv :: l) := by
  rw [maxValues]
  exact lt_of_lt_of_le (h kv (List.mem_cons_self _ _)) (foldl_max_ge l kv.2)

theorem maxValues_all_zero {kv : A × K} {l : List (A × K)}
    (h : ∀ x ∈ kv :: l, x.2 = 0) : maxValues (kv :: l) = 0 := by
  rw [maxValues]
  exact foldl_max_zero l kv.2 (h kv (List.mem_cons_self _ _))
    fun x hx => h x (List.mem_cons_of_mem _ hx)

theorem minValues_nonneg {l : List (A × K)} (h : ∀ x ∈ l, 0 ≤ x.2) :
    0 ≤ minValues l := by
  cases l with
  | nil => simp [minValues]
  | cons kv rest =>
      rw [minValues]
      exact foldl_min_nonneg rest kv.2 (h kv (List.mem_cons_self _ _))
        fun x hx => h x (List.mem_cons_of_mem _ hx)

/-- Claim C1: for maps `Q`, `P`, `N` carrying an action `a` (with values `q`,
`p`, `n`), `compute_ucb` scores `a` as
`Q(a) + c_puct * P(a) * sqrt(Σ_b N(b)) / (1 + N(a))`, and when every entry
of the count map is zero the returned score is exactly `Q(a)`, regardless of
the prior. -/
theorem claim_C1 {A : Type} [DecidableEq A] (av pp ac : List (A × ℝ)) (c_puct : ℝ)
    (a : A) (q p n : ℝ) (hq : alookup av a = some q) (hp : alookup pp a = some p)
    (hn : alookup ac a = some n) :
    alookup (compute_ucb Real.sqrt av pp ac c_puct) a
      = some (q + c_puct * p * Real.sqrt (sumValues ac) / (1 + n)) ∧
    ((∀ kv ∈ ac, kv.2 = 0) →
      alookup (compute_ucb Real.sqrt av pp ac c_puct) a = some q) := by
  have hbase : alookup (compute_ucb Real.sqrt av pp ac c_puct) a
      = some (q + p / (1 + n) * c_puct * Real.sqrt (sumValues ac)) := by
    rw [compute_ucb]
    rw [alookup_map_entry
      (fun kv => kv.2 + alookupD pp kv.1 0 / (1 + alookupD ac kv.1 0) * c_puct *
        Real.sqrt (sumValues ac)) av a]
    rw [hq]
    simp only [Option.map_some']
    rw [alookupD_of_alookup 0 hp, alookupD_of_alookup 0 hn]
  constructor
  · rw [hbase]
    congr 1
    ring
  · intro hz
    have hsum : sumValues ac = 0 := sumValues_eq_zero hz
    have hn0 : n = 0 := hz (a, n) (alookup_mem hn)
    rw [hbase, hsum, hn0]
    simp

theorem claim_C1_witness :
    alookup (compute_ucb Real.sqrt [((0 : ℕ), (2 : ℝ))] [(0, 1)] [(0, 0)] 5) 0
      = some (2 + 5 * 1 * Real.sqrt (sumValues [((0 : ℕ), (0 : ℝ))]) / (1 + 0)) ∧
    alookup (compute_ucb Real.sqrt [((0 : ℕ), (2 : ℝ))] [(0, 1)] [(0, 0)] 5) 0
      = some 2 :=
  ⟨(claim_C1 [(0, 2)] [(0, 1)] [(0, 0)] 5 0 2 1 0 (by simp [alookup_cons])
      (by simp [alookup_cons]) (by simp [alookup_cons])).1,
   (claim_C1 [(0, 2)] [(0, 1)] [(0, 0)] 5 0 2 1 0 (by simp [alookup_cons])
      (by simp [alookup_cons]) (by simp [alookup_cons])).2 (by
      intro kv hkv
      simp only [List.mem_singleton] at hkv
      rw [hkv])⟩

/-- Counterexample to claim C5 as stated: `normalise_distribution` on the
empty distribution does not fail with a domain error; it returns the empty
distribution (`sum({}) = 0` but the dict comprehension executes no
division). -/
theorem claim_C5_cex : normalise_distribution ([] : List (ℕ × ℚ)) = some [] := rfl

/-- Claim C5 (amended): `normalise` on a nonempty distribution whose values
sum to zero fails with a domain error, but on the empty distribution it
returns the empty distribution without error; `extremise` on an all-zero or
empty distribution fails. -/
theorem claim_C5_amended :
    (∀ d : List (A × K), d ≠ [] → sumValues d = 0 →
      normalise_distribution d = none) ∧
    normalise_distribution ([] : List (A × K)) = some [] ∧
    (∀ (powf : K → K → K) (d : List (A × K)) (tau : K), (∀ kv ∈ d, kv.2 = 0) →
      extremise_distribution powf d tau = none) := by
  refine ⟨?_, rfl, ?_⟩
  · intro d hne hsum
    cases d with
    | nil => exact absurd rfl hne
    | cons kv rest =>
        rw [normalise_distribution]
        simp [hsum]
  · intro powf d tau hz
    by_cases ht : (0 : K) < tau
    · cases d with
      | nil =>
          rw [extremise_distribution.eq_def]
          simp [ht]
      | cons kv rest =>
          rw [extremise_distribution.eq_def]
          simp only [ht, not_true, if_false, not_lt, if_neg (not_not_intro ht)]
          by_cases hmin : (0 : K) ≤ minValues (kv :: rest)
          · simp [hmin, maxValues_all_zero hz]
          · simp [hmin]
    · rw [extremise_distribution.eq_def]
      rw [if_pos (by simpa using ht)]

theorem claim_C5_amended_witness :
    normalise_distribution [((0 : ℕ), (1 : ℚ)), (1, -1)] = none ∧
    extremise_distribution (fun v _ => v) [((0 : ℕ), (0 : ℚ)), (1, 0)] 1 = none :=
  ⟨(claim_C5_amended.1 [(0, 1), (1, -1)] (by simp) (by
      simp [sumValues])),
   (claim_C5_amended.2.2 (fun v _ => v) [(0, 0), (1, 0)] 1 (by
      intro kv hkv
      simp only [List.mem_cons, List.mem_singleton, List.not_mem_nil, or_false] at hkv
      rcases hkv with rfl | rfl <;> rfl))⟩

/-- Claim C6: for every nonempty distribution with all values positive,
`extremise(d, 1)` (with the real power function) is exactly `normalise(d)`:
rescaling by the maximum, raising to the power `1/1` and renormalising gives
`v / Σd` key for key. -/
theorem claim_C6 {A : Type} [DecidableEq A] (d : List (A × ℝ)) (hne : d ≠ [])
    (hpos : ∀ kv ∈ d, 0 < kv.2) :
    extremise_distribution Real.rpow d 1 = normalise_distribution d := by
  cases d with
  | nil => exact absurd rfl hne
  | cons kv0 rest =>
      have hM : 0 < maxValues (kv0 :: rest) := maxValues_pos hpos
      have hS : 0 < sumValues (kv0 :: rest) := sumValues_pos hpos
      rw [extremise_distribution, normalise_distribution]
      have h11 : (1 : ℝ) / 1 = 1 := by norm_num
      rw [h11]
      have hrw : ∀ x : ℝ, Real.rpow x 1 = x := fun x => Real.rpow_one x
      simp only [hrw]
      rw [if_neg (by norm_num)]
      rw [if_neg (by
        simp only [not_not]
        exact minValues_nonneg fun x hx => le_of_lt (hpos x hx))]
      rw [if_neg hM.ne']
      have heta : (fun kv : A × ℝ => (kv.1, kv.2)) = id := rfl
      rw [heta, List.map_id, sumValues_map_div]
      rw [if_neg (div_ne_zero hS.ne' hM.ne')]
      rw [if_neg hS.ne']
      congr 1
      rw [List.map_map]
      apply List.map_congr_left
      intro kv hkv
      simp only [Function.comp]
      have hdd : kv.2 / maxValues (kv0 :: rest) /
          (sumValues (kv0 :: rest) / maxValues (kv0 :: rest)) =
          kv.2 / sumValues (kv0 :: rest) := by
        field_simp
      rw [hdd]

theorem claim_C6_witness :
    extremise_distribution Real.rpow [((0 : ℕ), (3 : ℝ)), (1, 1)] 1
      = normalise_distribution [((0 : ℕ), (3 : ℝ)), (1, 1)] :=
  claim_C6 [(0, 3), (1, 1)] (by simp) (by
    intro kv hkv
    simp only [List.mem_cons, List.mem_singleton, List.not_mem_nil, or_false] at hkv
    rcases hkv with rfl | rfl <;> norm_num)

/-- Claim C7: mixing with `epsilon = 0` returns a map with the same keys and
values as the input, for every Dirichlet sample of the drawn dimension, and
the draw counter still advances by one (randomness is consumed). -/
theorem claim_C7 (dirichlet : K → ℕ → ℕ → List K) (d : List (A × K)) (alpha : K)
    (rng : ℕ) (hlen : (dirichlet alpha d.length rng).length = d.length) :
    (mix_dirichlet_noise dirichlet d 0 alpha rng).1 = d ∧
    (mix_dirichlet_noise dirichlet d 0 alpha rng).2 = rng + 1 := by
  refine ⟨?_, rfl⟩
  simp only [mix_dirichlet_noise]
  generalize dirichlet alpha d.length rng = noise at hlen ⊢
  induction d generalizing noise with
  | nil => simp
  | cons kv rest ih =>
      cases noise with
      | nil => simp at hlen
      | cons nz ns =>
          simp only [List.zipWith_cons_cons]
          rw [ih ns (by simpa using hlen)]
          have hv : (1 - (0 : K)) * kv.2 + 0 * nz = kv.2 := by ring
          rw [hv]

theorem claim_C7_witness :
    (mix_dirichlet_noise (fun _ n _ => List.replicate n (1 / 2 : ℚ))
        [((0 : ℕ), (3 : ℚ))] 0 1 5).1 = [(0, 3)] ∧
    (mix_dirichlet_noise (fun _ n _ => List.replicate n (1 / 2 : ℚ))
        [((0 : ℕ), (3 : ℚ))] 0 1 5).2 = 5 + 1 :=
  claim_C7 (fun _ n _ => List.replicate n (1 / 2)) [(0, 3)] 1 5 (by simp)

theorem backup_list_length (values : ℕ → K) (pp : Option ℕ)
    (nodes : List (MCTSNode S A K)) :
    (backup_list values pp nodes).length = nodes.length := by
  induction nodes generalizing pp with
  | nil => rfl
  | cons n0 rest ih => simp [backup_list, ih]

theorem backup_list_get_zero (values : ℕ → K) (pp : Option ℕ)
    (nodes : List (MCTSNode S A K)) :
    (backup_list values pp nodes).get? 0 =
      (nodes.get? 0).map (backup_node_update values pp) := by
  cases nodes with
  | nil => rfl
  | cons n0 rest => rfl

theorem backup_list_get_succ (values : ℕ → K) :
    ∀ (nodes : List (MCTSNode S A K)) (pp : Option ℕ) (j : ℕ)
      (prev cur : MCTSNode S A K), nodes.get? j = some prev →
      nodes.get? (j + 1) = some cur →
      (backup_list values pp nodes).get? (j + 1) =
        some (backup_node_update values (some prev.player) cur) := by
  intro nodes
  induction nodes with
  | nil => intro pp j prev cur h1 h2; simp at h1
  | cons n0 rest ih =>
      intro pp j prev cur h1 h2
      cases j with
      | zero =>
          simp only [List.get?_cons_zero, Option.some.injEq] at h1
          subst h1
          simp only [List.get?_cons_succ] at h2
          rw [backup_list]
          simp only [List.get?_cons_succ]
          rw [backup_list_get_zero, h2]
          rfl
      | succ i =>
          simp only [List.get?_cons_succ] at h1 h2
          rw [backup_list]
          simp only [List.get?_cons_succ]
          exact ih (some n0.player) i prev cur h1 h2

/-- Counterexample to claim C3 as stated: a path whose first node carries
the (falsy) player `0`.  The source guard `if parent_player:` skips the
update of the second node, whose cumulative value stays `0` although the
claim demands it be increased by `values[0] = 5`. -/
theorem claim_C3_cex :
    (backup [(MCTSNode.mk 0 0 false 0 0 0 [] [] : MCTSNode ℕ ℕ ℚ),
        MCTSNode.mk 1 1 false 0 0 0 [] []]
      (fun _ => (5 : ℚ))).get? 1
        = some (MCTSNode.mk 1 1 false 0 0 1 [] []) ∧
    (0 : ℚ) ≠ 0 + 5 := by
  constructor
  · simp [backup, backup_list, backup_node_update, pyTruthy]
  · norm_num

/-- Claim C3 (amended): backup increments every path node's visit count by
one and leaves all other fields except `W`, `Q` unchanged; the first node's
`W` and `Q` are untouched; a later node is updated with the value-map entry
of the previous node's player and its mean recomputed, provided that player
is truthy (nonzero), and is left with `W`, `Q` untouched when the previous
node's player is `0` (Python's falsy guard `if parent_player:`). -/
theorem claim_C3_amended (nodes : List (MCTSNode S A K)) (values : ℕ → K) :
    (backup nodes values).length = nodes.length ∧
    (∀ cur, nodes.get? 0 = some cur →
      ∃ res, (backup nodes values).get? 0 = some res ∧
        res.N = cur.N + 1 ∧ res.W = cur.W ∧ res.Q = cur.Q ∧
        res.game_state = cur.game_state ∧ res.player = cur.player ∧
        res.is_terminal = cur.is_terminal ∧ res.children = cur.children ∧
        res.prior_probs = cur.prior_probs) ∧
    (∀ j prev cur, nodes.get? j = some prev → nodes.get? (j + 1) = some cur →
      ∃ res, (backup nodes values).get? (j + 1) = some res ∧
        res.N = cur.N + 1 ∧
        res.game_state = cur.game_state ∧ res.player = cur.player ∧
        res.is_terminal = cur.is_terminal ∧ res.children = cur.children ∧
        res.prior_probs = cur.prior_probs ∧
        (prev.player ≠ 0 →
          res.W = cur.W + values prev.player ∧ res.Q = res.W / res.N) ∧
        (prev.player = 0 → res.W = cur.W ∧ res.Q = cur.Q)) := by
  refine ⟨backup_list_length values none nodes, ?_, ?_⟩
  · intro cur h0
    refine ⟨backup_node_update values none cur, ?_, ?_⟩
    · rw [backup, backup_list_get_zero, h0]
      rfl
    · have hf := backup_node_update_falsy values none cur rfl
      have hs := backup_node_update_static values none cur
      exact ⟨backup_node_update_N values none cur, hf.1, hf.2,
        hs.1, hs.2.1, hs.2.2.1, hs.2.2.2.1, hs.2.2.2.2⟩
  · intro j prev cur h1 h2
    refine ⟨backup_node_update values (some prev.player) cur, ?_, ?_⟩
    · rw [backup]
      exact backup_list_get_succ values nodes none j prev cur h1 h2
    · have hs := backup_node_update_static values (some prev.player) cur
      refine ⟨backup_node_update_N values (some prev.player) cur,
        hs.1, hs.2.1, hs.2.2.1, hs.2.2.2.1, hs.2.2.2.2, ?_, ?_⟩
      · intro hp
        have ht : pyTruthy (some prev.player) = true := by
          simp [pyTruthy, hp]
        have h3 := backup_node_update_truthy values (some prev.player) cur ht
        refine ⟨by rw [h3.1]; rfl, ?_⟩
        rw [h3.2, h3.1, backup_node_update_N]
      · intro hp
        have ht : pyTruthy (some prev.player) = false := by
          simp [pyTruthy, hp]
        exact backup_node_update_falsy values (some prev.player) cur ht

theorem claim_C3_amended_witness :
    ∃ res,
      (backup [(MCTSNode.mk 0 1 false 0 0 0 [] [] : MCTSNode ℕ ℕ ℚ),
          MCTSNode.mk 1 2 false 0 0 0 [] []]
        (fun p => if p = 1 then 3 else -3)).get? 1 = some res ∧
      res.N = 0 + 1 ∧
      res.W = 0 + (if (1 : ℕ) = 1 then (3 : ℚ) else -3) ∧ res.Q = res.W / res.N := by
  obtain ⟨res, ha, hb, _, _, _, _, _, hc, _⟩ :=
    (claim_C3_amended
      [(MCTSNode.mk 0 1 false 0 0 0 [] [] : MCTSNode ℕ ℕ ℚ),
        MCTSNode.mk 1 2 false 0 0 0 [] []]
      (fun p => if p = 1 then 3 else -3)).2.2 0
      (MCTSNode.mk 0 1 false 0 0 0 [] [])
      (MCTSNode.mk 1 2 false 0 0 0 [] []) rfl rfl
  have hd := hc (by simp)
  exact ⟨res, ha, hb, hd.1, hd.2⟩

/-- Counterexample to claim C9 as stated: on a backup path whose first node
carries the falsy player `0`, the second node (which satisfies the invariant
with `Q = 2 = 2 / 1`) gets its visit count incremented without the mean
being recomputed, so afterwards `Q = 2` but `W / N = 2 / 2 = 1`: backup does
not preserve the invariant. -/
theorem claim_C9_cex :
    meanInvariant (MCTSNode.mk 0 0 false 0 0 0 [] [] : MCTSNode ℕ ℕ ℚ) ∧
    meanInvariant (MCTSNode.mk 1 1 false 2 2 1 [] [] : MCTSNode ℕ ℕ ℚ) ∧
    (backup [(MCTSNode.mk 0 0 false 0 0 0 [] [] : MCTSNode ℕ ℕ ℚ),
        MCTSNode.mk 1 1 false 2 2 1 [] []] (fun _ => (5 : ℚ))).get? 1
      = some (MCTSNode.mk 1 1 false 2 2 2 [] []) ∧
    ¬ meanInvariant (MCTSNode.mk 1 1 false 2 2 2 [] [] : MCTSNode ℕ ℕ ℚ) := by
  refine ⟨?_, ?_, ?_, ?_⟩
  · intro h
    simp at h
  · intro h
    norm_num
  · simp [backup, backup_list, backup_node_update, pyTruthy]
    norm_num
  · intro h
    have h2 := h (by norm_num)
    norm_num at h2

/-- Claim C9 (amended): the invariant `Q = W / N` for `N ≠ 0` is established
by node construction, preserved by `expand` (which also creates children
satisfying it), and preserved by `backup` on any path of nodes satisfying it
whose first node has zero cumulative and mean value (as a search root does)
— provided every node on the path carries a truthy (nonzero) player; a falsy
player `0` on the path makes the source skip the mean update of the next
node and can break the invariant. -/
theorem claim_C9_amended :
    (∀ (s : S) (p : ℕ) (t : Bool),
      meanInvariant (MCTSNode.init s p t : MCTSNode S A K)) ∧
    (∀ (node : MCTSNode S A K) pr cs cp ct, meanInvariant node →
      meanInvariant (node.expand pr cs cp ct) ∧
      ∀ kc ∈ (node.expand pr cs cp ct).children, meanInvariant kc.2) ∧
    (∀ (nodes : List (MCTSNode S A K)) (values : ℕ → K),
      (∀ nd ∈ nodes, meanInvariant nd) →
      (∀ first, nodes.get? 0 = some first → first.W = 0 ∧ first.Q = 0) →
      (∀ nd ∈ nodes, nd.player ≠ 0) →
      ∀ i res, (backup nodes values).get? i = some res → meanInvariant res) := by
  refine ⟨?_, ?_, ?_⟩
  · intro s p t h
    simp [MCTSNode.init] at h
  · intro node pr cs cp ct hinv
    constructor
    · intro h
      rw [MCTSNode.expand_def] at h ⊢
      simp only [MCTSNode.N_mk] at h
      simp only [MCTSNode.Q_mk, MCTSNode.W_mk, MCTSNode.N_mk]
      exact hinv h
    · intro kc hkc
      rw [MCTSNode.expand_def] at hkc
      simp only [MCTSNode.children_mk, List.mem_map] at hkc
      obtain ⟨as, hmem, rfl⟩ := hkc
      intro h
      simp [MCTSNode.init] at h
  · intro nodes values hinv hfirst hplayers i res hres
    cases i with
    | zero =>
        rw [backup, backup_list_get_zero] at hres
        cases h0 : nodes.get? 0 with
        | none => rw [h0] at hres; simp at hres
        | some first =>
            rw [h0] at hres
            simp only [Option.map_some', Option.some.injEq] at hres
            subst hres
            have hf := backup_node_update_falsy values none first rfl
            have hw := (hfirst first h0).1
            have hq := (hfirst first h0).2
            intro hN
            rw [hf.2, hq, hf.1, hw, backup_node_update_N, zero_div]
    | succ j =>
        have hlen : (backup nodes values).length = nodes.length :=
          backup_list_length values none nodes
        have hlt : j + 1 < nodes.length := by
          by_contra hge
          rw [← hlen] at hge
          rw [List.get?_eq_none.mpr (by omega)] at hres
          simp at hres
        have hcur : ∃ cur, nodes.get? (j + 1) = some cur := by
          cases hc : nodes.get? (j + 1) with
          | none => rw [List.get?_eq_none] at hc; omega
          | some cur => exact ⟨cur, rfl⟩
        have hprev : ∃ prev, nodes.get? j = some prev := by
          cases hc : nodes.get? j with
          | none => rw [List.get?_eq_none] at hc; omega
          | some prev => exact ⟨prev, rfl⟩
        obtain ⟨cur, hcur⟩ := hcur
        obtain ⟨prev, hprev⟩ := hprev
        rw [backup, backup_list_get_succ values nodes none j prev cur hprev hcur]
          at hres
        simp only [Option.some.injEq] at hres
        subst hres
        have hp : prev.player ≠ 0 := hplayers prev (List.get?_mem hprev)
        have ht : pyTruthy (some prev.player) = true := by simp [pyTruthy, hp]
        have h3 := backup_node_update_truthy values (some prev.player) cur ht
        intro hN
        rw [h3.2, h3.1, backup_node_update_N]

theorem claim_C9_amended_witness :
    meanInvariant (MCTSNode.mk 1 2 false ((0 + 5) / (0 + 1)) (0 + 5) (0 + 1) [] []
      : MCTSNode ℕ ℕ ℚ) := by
  refine (claim_C9_amended.2.2
    [(MCTSNode.mk 0 1 false 0 0 0 [] [] : MCTSNode ℕ ℕ ℚ),
      MCTSNode.mk 1 2 false 0 0 0 [] []] (fun _ => (5 : ℚ)) ?_ ?_ ?_ 1
    (MCTSNode.mk 1 2 false ((0 + 5) / (0 + 1)) (0 + 5) (0 + 1) [] []) ?_)
  · intro nd hnd
    simp only [List.mem_cons, List.mem_singleton, List.not_mem_nil, or_false] at hnd
    rcases hnd with rfl | rfl <;> (intro h; simp at h)
  · intro first h
    simp only [List.get?_cons_zero, Option.some.injEq] at h
    subst h
    exact ⟨rfl, rfl⟩
  · intro nd hnd
    simp only [List.mem_cons, List.mem_singleton, List.not_mem_nil, or_false] at hnd
    rcases hnd with rfl | rfl <;> simp
  · simp [backup, backup_list, backup_node_update, pyTruthy]

theorem select_of_children_nil (dirichlet : K → ℕ → ℕ → List K) (sq : K → K)
    (c_puct epsilon alpha : K) (node : MCTSNode S A K) (rng : ℕ)
    (hch : node.children = []) :
    select dirichlet sq c_puct epsilon alpha node rng = ([node], [], rng) := by
  rcases select_cases dirichlet sq c_puct epsilon alpha node rng with
    ⟨_, h⟩ | ⟨_, _, hne, _, _, _⟩
  · exact h
  · exact absurd hch hne

theorem select_of_max_lookup (dirichlet : K → ℕ → ℕ → List K) (sq : K → K)
    (c_puct epsilon alpha : K) (node child : MCTSNode S A K) (act : A) (rng : ℕ)
    (hch : node.children ≠ [])
    (hmax : maxKey (selUCB dirichlet sq c_puct epsilon alpha node rng) = some act)
    (halo : alookup node.children act = some child) :
    select dirichlet sq c_puct epsilon alpha node rng =
      (node :: (select dirichlet sq c_puct epsilon alpha child (rng + 1)).1,
       act :: (select dirichlet sq c_puct epsilon alpha child (rng + 1)).2.1,
       (select dirichlet sq c_puct epsilon alpha child (rng + 1)).2.2) := by
  rcases select_cases dirichlet sq c_puct epsilon alpha node rng with
    ⟨hnil, _⟩ | ⟨act2, child2, _, hmax2, halo2, heq2⟩
  · exact absurd hnil hch
  · rw [hmax] at hmax2
    injection hmax2 with e1
    subst e1
    rw [halo] at halo2
    injection halo2 with e2
    subst e2
    exact heq2

theorem MCTSNode.expand_N (node : MCTSNode S A K) (pr : List (A × K))
    (cs : List (A × S)) (cp : List (A × ℕ)) (ct : List (A × Bool)) :
    (node.expand pr cs cp ct).N = node.N := by
  rw [MCTSNode.expand_def]
  simp

theorem MCTSNode.expand_children (node : MCTSNode S A K) (pr : List (A × K))
    (cs : List (A × S)) (cp : List (A × ℕ)) (ct : List (A × Bool)) :
    (node.expand pr cs cp ct).children =
      cs.map fun as =>
        (as.1, MCTSNode.init as.2 (alookupD cp as.1 0) (alookupD ct as.1 false)) := by
  rw [MCTSNode.expand_def]
  simp

theorem MCTSNode.expand_game_state (node : MCTSNode S A K) (pr : List (A × K))
    (cs : List (A × S)) (cp : List (A × ℕ)) (ct : List (A × Bool)) :
    (node.expand pr cs cp ct).game_state = node.game_state := by
  rw [MCTSNode.expand_def]
  simp

theorem MCTSNode.expand_is_terminal (node : MCTSNode S A K) (pr : List (A × K))
    (cs : List (A × S)) (cp : List (A × ℕ)) (ct : List (A × Bool)) :
    (node.expand pr cs cp ct).is_terminal = node.is_terminal := by
  rw [MCTSNode.expand_def]
  simp

theorem mctsStep_leaf_eq (game : GameM S A K) (estimator : S → List (A × K) × K)
    (dirichlet : K → ℕ → ℕ → List K) (sq : K → K) (c_puct epsilon alpha : K)
    (tree : MCTSNode S A K) (rng : ℕ) (hch : tree.children = []) :
    mctsStep game estimator dirichlet sq c_puct epsilon alpha (tree, rng) =
      if tree.is_terminal then
        some (backup_node_update (game.utility tree.game_state) none tree, rng)
      else
        match normalise_distribution (estimator tree.game_state).1 with
        | none => none
        | some prior2 =>
            some (backup_node_update
              (fun pl => if pl = game.current_player tree.game_state
                then (estimator tree.game_state).2
                else if pl = (if game.current_player tree.game_state = 2 then 1 else 2)
                then -(estimator tree.game_state).2 else 0)
              none
              (tree.expand prior2 (game.legal_actions tree.game_state)
                ((game.legal_actions tree.game_state).map fun as =>
                  (as.1, game.current_player as.2))
                ((game.legal_actions tree.game_state).map fun as =>
                  (as.1, game.is_terminal as.2))), rng) := by
  simp only [mctsStep]
  rw [select_of_children_nil dirichlet sq c_puct epsilon alpha tree rng hch]
  simp only [List.getLastD_cons, List.getLastD_nil]
  rw [backup_tree_nil]
  cases ht : tree.is_terminal with
  | true => simp
  | false =>
      cases hnorm : normalise_distribution (estimator tree.game_state).1 with
      | none => simp
      | some prior2 => simp [replaceAt_nil, backup_tree_nil]

theorem mctsStep_terminal_leaf (game : GameM S A K) (estimator : S → List (A × K) × K)
    (dirichlet : K → ℕ → ℕ → List K) (sq : K → K) (c_puct epsilon alpha : K)
    (tree : MCTSNode S A K) (rng : ℕ) (hch : tree.children = [])
    (ht : tree.is_terminal = true) :
    mctsStep game estimator dirichlet sq c_puct epsilon alpha (tree, rng) =
      some (backup_node_update (game.utility tree.game_state) none tree, rng) := by
  rw [mctsStep_leaf_eq game estimator dirichlet sq c_puct epsilon alpha tree rng hch,
    if_pos ht]

theorem mctsStep_childless (game : GameM S A K) (estimator : S → List (A × K) × K)
    (dirichlet : K → ℕ → ℕ → List K) (sq : K → K) (c_puct epsilon alpha : K)
    (tree : MCTSNode S A K) (rng : ℕ) (out : MCTSNode S A K × ℕ)
    (hch : tree.children = [])
    (hla : game.legal_actions tree.game_state = [])
    (hstep : mctsStep game estimator dirichlet sq c_puct epsilon alpha (tree, rng)
      = some out) :
    out.1.children = [] ∧ out.1.game_state = tree.game_state := by
  rw [mctsStep_leaf_eq game estimator dirichlet sq c_puct epsilon alpha tree rng hch]
    at hstep
  by_cases ht : tree.is_terminal = true
  · rw [if_pos ht] at hstep
    injection hstep with h
    subst h
    have hs := backup_node_update_static (game.utility tree.game_state) none tree
    exact ⟨by rw [hs.2.2.2.1, hch], hs.1⟩
  · rw [if_neg ht] at hstep
    cases hnorm : normalise_distribution (estimator tree.game_state).1 with
    | none => rw [hnorm] at hstep; simp at hstep
    | some prior2 =>
        rw [hnorm] at hstep
        injection hstep with h
        subst h
        have hs := backup_node_update_static (fun pl => if pl = game.current_player tree.game_state
            then (estimator tree.game_state).2
            else if pl = (if game.current_player tree.game_state = 2 then 1 else 2)
            then -(estimator tree.game_state).2 else 0) none
          (tree.expand prior2 (game.legal_actions tree.game_state)
            ((game.legal_actions tree.game_state).map fun as =>
              (as.1, game.current_player as.2))
            ((game.legal_actions tree.game_state).map fun as =>
              (as.1, game.is_terminal as.2)))
        constructor
        · rw [hs.2.2.2.1, MCTSNode.expand_children, hla]
          rfl
        · rw [hs.1, MCTSNode.expand_game_state]

theorem mctsStep_base (game : GameM S A K) (estimator : S → List (A × K) × K)
    (dirichlet : K → ℕ → ℕ → List K) (sq : K → K) (c_puct epsilon alpha : K)
    (tree : MCTSNode S A K) (rng : ℕ) (out : MCTSNode S A K × ℕ)
    (hch : tree.children = []) (hterm : tree.is_terminal = false)
    (hstep : mctsStep game estimator dirichlet sq c_puct epsilon alpha (tree, rng)
      = some out) :
    out.1.N = tree.N + 1 ∧
    out.1.game_state = tree.game_state ∧
    out.1.children = (game.legal_actions tree.game_state).map (fun as =>
      (as.1, MCTSNode.init as.2
        (alookupD ((game.legal_actions tree.game_state).map fun bs =>
          (bs.1, game.current_player bs.2)) as.1 0)
        (alookupD ((game.legal_actions tree.game_state).map fun bs =>
          (bs.1, game.is_terminal bs.2)) as.1 false))) ∧
    out.2 = rng := by
  rw [mctsStep_leaf_eq game estimator dirichlet sq c_puct epsilon alpha tree rng hch]
    at hstep
  rw [if_neg (by rw [hterm]; simp)] at hstep
  cases hnorm : normalise_distribution (estimator tree.game_state).1 with
  | none => rw [hnorm] at hstep; simp at hstep
  | some prior2 =>
      rw [hnorm] at hstep
      injection hstep with h
      subst h
      have hs := backup_node_update_static (fun pl => if pl = game.current_player tree.game_state
            then (estimator tree.game_state).2
            else if pl = (if game.current_player tree.game_state = 2 then 1 else 2)
            then -(estimator tree.game_state).2 else 0) none
        (tree.expand prior2 (game.legal_actions tree.game_state)
          ((game.legal_actions tree.game_state).map fun as =>
            (as.1, game.current_player as.2))
          ((game.legal_actions tree.game_state).map fun as =>
            (as.1, game.is_terminal as.2)))
      refine ⟨?_, ?_, ?_, rfl⟩
      · rw [backup_node_update_N, MCTSNode.expand_N]
      · rw [hs.1, MCTSNode.expand_game_state]
      · rw [hs.2.2.2.1, MCTSNode.expand_children]

theorem mctsStep_inv (game : GameM S A K) (estimator : S → List (A × K) × K)
    (dirichlet : K → ℕ → ℕ → List K) (sq : K → K) (c_puct epsilon alpha : K)
    (tree : MCTSNode S A K) (rng : ℕ) (t' : MCTSNode S A K) (rng' : ℕ)
    (hch : tree.children ≠ [])
    (hnd : (tree.children.map Prod.fst).Nodup)
    (hstep : mctsStep game estimator dirichlet sq c_puct epsilon alpha (tree, rng)
      = some (t', rng')) :
    t'.N = tree.N + 1 ∧
    t'.children.map Prod.fst = tree.children.map Prod.fst ∧
    ((t'.children.map fun kc => kc.2.N).sum
      = (tree.children.map fun kc => kc.2.N).sum + 1) ∧
    t'.game_state = tree.game_state := by
  rcases select_cases dirichlet sq c_puct epsilon alpha tree rng with
    ⟨hnil, _⟩ | ⟨act, child, _, hmax, halo, hseleq⟩
  · exact absurd hnil hch
  · have hspec := select_spec dirichlet sq c_puct epsilon alpha tree rng
    simp only [SelectSpec] at hspec
    have hfollow := hspec.2.2.1
    rw [hseleq] at hfollow
    simp only [mctsStep] at hstep
    rw [hseleq] at hstep
    dsimp only at hstep
    set SA := (select dirichlet sq c_puct epsilon alpha child (rng + 1)).2.1 with hSA
    set L := (tree :: (select dirichlet sq c_puct epsilon alpha child
      (rng + 1)).1).getLastD tree with hLdef
    have hfc : follow child SA = some L := by
      rw [← follow_cons_some tree child act SA halo]
      exact hfollow
    cases hterm : L.is_terminal with
    | true =>
        rw [hterm] at hstep
        rw [if_pos rfl] at hstep
        simp only [Option.some.injEq, Prod.mk.injEq] at hstep
        obtain ⟨h1, h2⟩ := hstep
        subst h1
        refine ⟨backup_tree_N _ _ _ _, ?_, ?_, ?_⟩
        · rw [backup_tree_cons]
          simp only [MCTSNode.children_mk]
          exact modifyChild_keys tree.children act _
        · rw [backup_tree_cons]
          simp only [MCTSNode.children_mk]
          rw [sum_modifyChild tree.children act child _ hnd halo, backup_tree_N]
          ring
        · rw [backup_tree_cons]
          simp
    | false =>
        rw [hterm] at hstep
        rw [if_neg (by simp)] at hstep
        cases hnorm : normalise_distribution (estimator L.game_state).1 with
        | none => rw [hnorm] at hstep; simp at hstep
        | some prior2 =>
            rw [hnorm] at hstep
            simp only [Option.some.injEq, Prod.mk.injEq] at hstep
            obtain ⟨h1, h2⟩ := hstep
            subst h1
            have hrepN : (replaceAt child SA
                (L.expand prior2 (game.legal_actions L.game_state)
                  ((game.legal_actions L.game_state).map fun as =>
                    (as.1, game.current_player as.2))
                  ((game.legal_actions L.game_state).map fun as =>
                    (as.1, game.is_terminal as.2)))).N = child.N :=
              replaceAt_N_of_follow _ SA child L hfc (MCTSNode.expand_N _ _ _ _ _)
            rw [replaceAt_cons]
            refine ⟨?_, ?_, ?_, ?_⟩
            · rw [backup_tree_N]
              simp
            · rw [backup_tree_cons]
              simp only [MCTSNode.children_mk]
              rw [modifyChild_keys, modifyChild_keys]
            · rw [backup_tree_cons]
              simp only [MCTSNode.children_mk]
              rw [sum_modifyChild (modifyChild tree.children act fun c =>
                  replaceAt c SA
                    (L.expand prior2 (game.legal_actions L.game_state)
                      ((game.legal_actions L.game_state).map fun as =>
                        (as.1, game.current_player as.2))
                      ((game.legal_actions L.game_state).map fun as =>
                        (as.1, game.is_terminal as.2)))) act
                (replaceAt child SA
                  (L.expand prior2 (game.legal_actions L.game_state)
                    ((game.legal_actions L.game_state).map fun as =>
                      (as.1, game.current_player as.2))
                    ((game.legal_actions L.game_state).map fun as =>
                      (as.1, game.is_terminal as.2)))) _
                (by rw [modifyChild_keys]; exact hnd)
                (by rw [alookup_modifyChild, if_pos rfl, halo]; rfl)]
              rw [sum_modifyChild tree.children act child _ hnd halo]
              rw [backup_tree_N, hrepN]
              ring
            · rw [backup_tree_cons]
              simp

theorem extremise_nil (powf : K → K → K) (tau : K) :
    extremise_distribution powf ([] : List (A × K)) tau = none := by
  rw [extremise_distribution.eq_def]
  split <;> rfl

theorem childrenNSum_eq (node : MCTSNode S A K) :
    childrenNSum node = (node.children.map fun kc => kc.2.N).sum := by
  simp only [childrenNSum, childNCounts, sumValues, List.map_map]
  rfl

theorem sum_N_init_children (cs : List (A × S)) (cp : List (A × ℕ))
    (ct : List (A × Bool)) :
    (((cs.map fun as => (as.1, (MCTSNode.init as.2 (alookupD cp as.1 0)
      (alookupD ct as.1 false) : MCTSNode S A K))).map fun kc => kc.2.N)).sum = 0 := by
  induction cs with
  | nil => rfl
  | cons as rest ih =>
      simp only [List.map_cons, List.sum_cons, ih]
      simp [MCTSNode.init]

theorem runLoop_childless (game : GameM S A K) (estimator : S → List (A × K) × K)
    (dirichlet : K → ℕ → ℕ → List K) (sq : K → K) (c_puct epsilon alpha : K) :
    ∀ (k : ℕ) (st out : MCTSNode S A K × ℕ), st.1.children = [] →
      game.legal_actions st.1.game_state = [] →
      runLoop (mctsStep game estimator dirichlet sq c_puct epsilon alpha) k st
        = some out →
      out.1.children = [] := by
  intro k
  induction k with
  | zero =>
      intro st out hch hla hrun
      simp only [runLoop, Option.some.injEq] at hrun
      subst hrun
      exact hch
  | succ k ih =>
      intro st out hch hla hrun
      rw [runLoop] at hrun
      cases hstep : mctsStep game estimator dirichlet sq c_puct epsilon alpha st with
      | none => rw [hstep] at hrun; simp at hrun
      | some st2 =>
          rw [hstep] at hrun
          obtain ⟨t0, r0⟩ := st
          have h2 := mctsStep_childless game estimator dirichlet sq c_puct epsilon
            alpha t0 r0 st2 hch hla hstep
          exact ih st2 out h2.1 (by rw [h2.2]; exact hla) hrun

theorem runLoop_inv (game : GameM S A K) (estimator : S → List (A × K) × K)
    (dirichlet : K → ℕ → ℕ → List K) (sq : K → K) (c_puct epsilon alpha : K) :
    ∀ (k : ℕ) (st out : MCTSNode S A K × ℕ), st.1.children ≠ [] →
      (st.1.children.map Prod.fst).Nodup →
      runLoop (mctsStep game estimator dirichlet sq c_puct epsilon alpha) k st
        = some out →
      out.1.N = st.1.N + (k : K) ∧
      ((out.1.children.map fun kc => kc.2.N).sum
        = (st.1.children.map fun kc => kc.2.N).sum + (k : K)) ∧
      out.1.children.map Prod.fst = st.1.children.map Prod.fst ∧
      out.1.game_state = st.1.game_state := by
  intro k
  induction k with
  | zero =>
      intro st out hch hnd hrun
      simp only [runLoop, Option.some.injEq] at hrun
      subst hrun
      simp
  | succ k ih =>
      intro st out hch hnd hrun
      rw [runLoop] at hrun
      cases hstep : mctsStep game estimator dirichlet sq c_puct epsilon alpha st with
      | none => rw [hstep] at hrun; simp at hrun
      | some st2 =>
          rw [hstep] at hrun
          obtain ⟨t0, r0⟩ := st
          obtain ⟨t2, r2⟩ := st2
          have h2 := mctsStep_inv game estimator dirichlet sq c_puct epsilon alpha
            t0 r0 t2 r2 hch hnd hstep
          have hne2 : t2.children ≠ [] := by
            intro hnil
            rw [hnil] at h2
            have := h2.2.1
            simp only [List.map_nil] at this
            exact hch (List.map_eq_nil.mp this.symm)
          have hnd2 : (t2.children.map Prod.fst).Nodup := by
            rw [h2.2.1]
            exact hnd
          have h3 := ih (t2, r2) out hne2 hnd2 hrun
          refine ⟨?_, ?_, ?_, ?_⟩
          · rw [h3.1]
            simp only
            rw [h2.1]
            push_cast
            ring
          · rw [h3.2.1]
            simp only
            rw [h2.2.2.1]
            push_cast
            ring
          · rw [h3.2.2.1]
            simp only
            rw [h2.2.1]
          · rw [h3.2.2.2]
            simp only
            rw [h2.2.2.2]

/-- Claim C2: a completed search from a freshly created non-terminal root
leaves the root with visit count `iterations` and its direct children with
visit counts summing to `iterations - 1` (the first iteration expands the
root without descending). -/
theorem claim_C2 (game : GameM S A K) (estimator : S → List (A × K) × K)
    (dirichlet : K → ℕ → ℕ → List K) (sq : K → K) (powf : K → K → K)
    (c_puct tau epsilon alpha : K) (root : MCTSNode S A K) (iters rng0 : ℕ)
    (tree : MCTSNode S A K) (rngF : ℕ) (dist : List (A × K))
    (hch0 : root.children = []) (hN0 : root.N = 0)
    (hterm : root.is_terminal = false) (hiters : 1 ≤ iters)
    (hnodup : ((game.legal_actions root.game_state).map Prod.fst).Nodup)
    (hrun : mctsRun dirichlet sq root game estimator iters c_puct epsilon alpha rng0
      = some (tree, rngF))
    (hdist : mcts dirichlet sq powf root game estimator iters c_puct tau epsilon
      alpha rng0 = some dist) :
    tree.N = (iters : K) ∧ childrenNSum tree = (iters : K) - 1 := by
  obtain ⟨k, rfl⟩ : ∃ k, iters = k + 1 := ⟨iters - 1, by omega⟩
  rw [mctsRun, runLoop] at hrun
  cases hstep : mctsStep game estimator dirichlet sq c_puct epsilon alpha
      (root, rng0) with
  | none => rw [hstep] at hrun; simp at hrun
  | some st1 =>
      rw [hstep] at hrun
      by_cases hla : game.legal_actions root.game_state = []
      · exfalso
        obtain ⟨t1, r1⟩ := st1
        have h1 := mctsStep_childless game estimator dirichlet sq c_puct epsilon
          alpha root rng0 (t1, r1) hch0 hla hstep
        have htree : tree.children = [] :=
          runLoop_childless game estimator dirichlet sq c_puct epsilon alpha k
            (t1, r1) (tree, rngF) h1.1 (by rw [h1.2]; exact hla) hrun
        simp only [mcts] at hdist
        rw [mctsRun, runLoop, hstep, hrun] at hdist
        dsimp only at hdist
        have : childNCounts tree = [] := by simp [childNCounts, htree]
        rw [this, extremise_nil] at hdist
        simp at hdist
      · obtain ⟨t1, r1⟩ := st1
        have hbase := mctsStep_base game estimator dirichlet sq c_puct epsilon
          alpha root rng0 (t1, r1) hch0 hterm hstep
        have hkeys1 : t1.children.map Prod.fst
            = (game.legal_actions root.game_state).map Prod.fst := by
          have := hbase.2.2.1
          simp only at this
          rw [this, List.map_map]
          rfl
        have hne1 : t1.children ≠ [] := by
          intro hnil
          rw [hnil] at hkeys1
          exact hla (List.map_eq_nil.mp hkeys1.symm)
        have hnd1 : (t1.children.map Prod.fst).Nodup := by
          rw [hkeys1]
          exact hnodup
        have hsum1 : (t1.children.map fun kc => kc.2.N).sum = 0 := by
          have := hbase.2.2.1
          simp only at this
          rw [this]
          exact sum_N_init_children _ _ _
        have hloop := runLoop_inv game estimator dirichlet sq c_puct epsilon alpha
          k (t1, r1) (tree, rngF) hne1 hnd1 hrun
        have hN1 : t1.N = 1 := by
          have := hbase.1
          simp only at this
          rw [this, hN0, zero_add]
        constructor
        · have := hloop.1
          simp only at this
          rw [this, hN1]
          push_cast
          ring
        · rw [childrenNSum_eq]
          have := hloop.2.1
          simp only at this
          rw [this, hsum1]
          push_cast
          ring

theorem runLoop_terminal_leaf (game : GameM S A K) (estimator : S → List (A × K) × K)
    (dirichlet : K → ℕ → ℕ → List K) (sq : K → K) (c_puct epsilon alpha : K) :
    ∀ (k : ℕ) (st out : MCTSNode S A K × ℕ), st.1.children = [] →
      st.1.is_terminal = true →
      runLoop (mctsStep game estimator dirichlet sq c_puct epsilon alpha) k st
        = some out →
      out.1.children = [] := by
  intro k
  induction k with
  | zero =>
      intro st out hch ht hrun
      simp only [runLoop, Option.some.injEq] at hrun
      subst hrun
      exact hch
  | succ k ih =>
      intro st out hch ht hrun
      obtain ⟨t0, r0⟩ := st
      rw [runLoop, mctsStep_terminal_leaf game estimator dirichlet sq c_puct epsilon
        alpha t0 r0 hch ht] at hrun
      have hs := backup_node_update_static (game.utility t0.game_state) none t0
      exact ih _ out (by rw [hs.2.2.2.1]; exact hch) (by rw [hs.2.2.1]; exact ht) hrun

/-- Counterexample to claim C4 as stated: a driver call with zero iterations
on a root that already owns an expanded child with one recorded visit (a
reused subtree) silently returns a probability distribution instead of
surfacing an error. -/
theorem claim_C4_cex :
    mcts exDirichletR Real.sqrt Real.rpow exRootExpandedR exGameR exEstimatorR 0
      1 1 (1 / 4) (3 / 100) 0 = some [(0, 1)] := by
  have hrw : ∀ x : ℝ, Real.rpow x 1 = x := fun x => Real.rpow_one x
  simp only [mcts, mctsRun, runLoop]
  rw [show childNCounts exRootExpandedR = [(0, (1 : ℝ))] by
    simp [childNCounts, exRootExpandedR]]
  norm_num [extremise_distribution, maxValues, minValues, sumValues, hrw]

/-- Claim C4 (amended): when the root has no children (in particular any
freshly created root), invoking the driver with zero iterations or with an
already-terminal root surfaces an error rather than returning a
distribution: the final conversion of the empty action-count dict fails.
For a root that already owns children this guarantee does not hold — a
zero-iteration call can silently return a distribution from the existing
visit counts, as the counterexample shows. -/
theorem claim_C4_amended (game : GameM S A K) (estimator : S → List (A × K) × K)
    (dirichlet : K → ℕ → ℕ → List K) (sq : K → K) (powf : K → K → K)
    (c_puct tau epsilon alpha : K) (root : MCTSNode S A K) (iters rng : ℕ)
    (hch : root.children = []) (h : iters = 0 ∨ root.is_terminal = true) :
    mcts dirichlet sq powf root game estimator iters c_puct tau epsilon alpha rng
      = none := by
  cases h with
  | inl h0 =>
      subst h0
      simp only [mcts, mctsRun, runLoop]
      rw [show childNCounts root = [] by simp [childNCounts, hch]]
      exact extremise_nil powf tau
  | inr ht =>
      simp only [mcts]
      cases hr : mctsRun dirichlet sq root game estimator iters c_puct epsilon
          alpha rng with
      | none => rfl
      | some out =>
          dsimp only
          rw [mctsRun] at hr
          have hout : out.1.children = [] :=
            runLoop_terminal_leaf game estimator dirichlet sq c_puct epsilon alpha
              iters (root, rng) out hch ht hr
          rw [show childNCounts out.1 = [] by simp [childNCounts, hout]]
          exact extremise_nil powf tau

theorem claim_C4_amended_witness :
    mcts exDirichlet exSqrt exPow exRoot exGame exEstimator 0 1 1 0 1 0 = none :=
  claim_C4_amended exGame exEstimator exDirichlet exSqrt exPow 1 1 0 1 exRoot 0 0
    (by simp [exRoot, MCTSNode.init]) (Or.inl rfl)

/-- Claim C8: at every non-leaf node visited on a selection path, the
distribution used for PUCT scoring is that node's own `prior_probs` mixed
with Dirichlet noise freshly drawn for that node (draw counter `rng + i` at
depth `i`) using the caller-supplied epsilon and alpha — not only at the
root: the action taken at depth `i` is the arg-max of exactly these
scores. -/
theorem claim_C8 (dirichlet : K → ℕ → ℕ → List K) (sq : K → K)
    (c_puct epsilon alpha : K) (node : MCTSNode S A K) (rng : ℕ) :
    ∀ i, i < (select dirichlet sq c_puct epsilon alpha node rng).2.1.length →
      ∃ st act,
        (select dirichlet sq c_puct epsilon alpha node rng).2.1.get? i
          = some act ∧
        follow node
          ((select dirichlet sq c_puct epsilon alpha node rng).2.1.take i)
          = some st ∧
        st.children ≠ [] ∧
        maxKey (compute_ucb sq (st.children.map fun ac => (ac.1, ac.2.Q))
          (mix_dirichlet_noise dirichlet st.prior_probs epsilon alpha (rng + i)).1
          (st.children.map fun ac => (ac.1, ac.2.N)) c_puct) = some act := by
  have h := select_spec dirichlet sq c_puct epsilon alpha node rng
  simp only [SelectSpec] at h
  intro i hi
  obtain ⟨st, act, h1, h2, h3, h4⟩ := h.2.2.2 i hi
  exact ⟨st, act, h1, h2, h3, h4⟩

theorem claim_C8_witness :
    ∃ st act, (select exDirichlet exSqrt 1 0 1 exRoot1 0).2.1.get? 0 = some act ∧
      follow exRoot1 ((select exDirichlet exSqrt 1 0 1 exRoot1 0).2.1.take 0)
        = some st ∧
      st.children ≠ [] ∧
      maxKey (compute_ucb exSqrt (st.children.map fun ac => (ac.1, ac.2.Q))
        (mix_dirichlet_noise exDirichlet st.prior_probs 0 1 (0 + 0)).1
        (st.children.map fun ac => (ac.1, ac.2.N)) 1) = some act := by
  apply claim_C8 exDirichlet exSqrt 1 0 1 exRoot1 0 0
  have hchsel : select exDirichlet exSqrt 1 0 1 exChild 1 = ([exChild], [], 1) :=
    select_of_children_nil exDirichlet exSqrt 1 0 1 exChild 1 rfl
  have hmax : maxKey (selUCB exDirichlet exSqrt 1 0 1 exRoot1 0) = some 0 := rfl
  have halo : alookup exRoot1.children 0 = some exChild := rfl
  have hsel : select exDirichlet exSqrt 1 0 1 exRoot1 0
      = ([exRoot1, exChild], [0], 1) := by
    rw [select_of_max_lookup exDirichlet exSqrt 1 0 1 exRoot1 exChild 0 0
      (by simp [exRoot1]) hmax halo]
    norm_num [hchsel]
  rw [hsel]
  simp

/-- Claim C10: selection is read-only with respect to the tree: the node
path returned by `select` consists exactly of the input tree's own nodes
(the node at position `i` is the node reached by following the first `i`
actions from the unmodified input tree, and the path starts at the input
node itself, with every field — in particular `prior_probs` — unchanged);
the noise-mixed priors are a separate map that is never written back. -/
theorem claim_C10 (dirichlet : K → ℕ → ℕ → List K) (sq : K → K)
    (c_puct epsilon alpha : K) (node : MCTSNode S A K) (rng : ℕ) :
    (select dirichlet sq c_puct epsilon alpha node rng).1.length
      = (select dirichlet sq c_puct epsilon alpha node rng).2.1.length + 1 ∧
    (select dirichlet sq c_puct epsilon alpha node rng).1.get? 0 = some node ∧
    ∀ i, i < (select dirichlet sq c_puct epsilon alpha node rng).1.length →
      follow node ((select dirichlet sq c_puct epsilon alpha node rng).2.1.take i)
        = (select dirichlet sq c_puct epsilon alpha node rng).1.get? i := by
  have h := select_spec dirichlet sq c_puct epsilon alpha node rng
  simp only [SelectSpec] at h
  refine ⟨h.1, ?_, h.2.1⟩
  have h0 := h.2.1 0 (by omega)
  rw [List.take_zero, follow_nil] at h0
  exact h0.symm

theorem claim_C10_witness :
    (select exDirichlet exSqrt 1 0 1 exRoot1 0).1.get? 0 = some exRoot1 ∧
    follow exRoot1 ((select exDirichlet exSqrt 1 0 1 exRoot1 0).2.1.take 1)
      = (select exDirichlet exSqrt 1 0 1 exRoot1 0).1.get? 1 := by
  have h := claim_C10 exDirichlet exSqrt 1 0 1 exRoot1 0
  refine ⟨h.2.1, h.2.2 1 ?_⟩
  have hchsel : select exDirichlet exSqrt 1 0 1 exChild 1 = ([exChild], [], 1) :=
    select_of_children_nil exDirichlet exSqrt 1 0 1 exChild 1 rfl
  have hmax : maxKey (selUCB exDirichlet exSqrt 1 0 1 exRoot1 0) = some 0 := rfl
  have halo : alookup exRoot1.children 0 = some exChild := rfl
  have hsel : select exDirichlet exSqrt 1 0 1 exRoot1 0
      = ([exRoot1, exChild], [0], 1) := by
    rw [select_of_max_lookup exDirichlet exSqrt 1 0 1 exRoot1 exChild 0 0
      (by simp [exRoot1]) hmax halo]
    norm_num [hchsel]
  rw [hsel]
  simp

theorem claim_C2_witness :
    mctsRun exDirichlet exSqrt exRoot exGame exEstimator 2 1 0 1 0
      = some (exTree2, 1) ∧
    mcts exDirichlet exSqrt exPow exRoot exGame exEstimator 2 1 1 0 1 0
      = some [(0, 1)] ∧
    exTree2.N = ((2 : ℕ) : ℚ) ∧ childrenNSum exTree2 = ((2 : ℕ) : ℚ) - 1 := by
  have hstep1 : mctsStep exGame exEstimator exDirichlet exSqrt 1 0 1 (exRoot, 0)
      = some (exRoot1, 0) := by
    rw [mctsStep_leaf_eq exGame exEstimator exDirichlet exSqrt 1 0 1 exRoot 0
      (by simp [exRoot, MCTSNode.init])]
    norm_num [exRoot, exGame, exEstimator, MCTSNode.init, normalise_distribution,
      sumValues, backup_node_update, pyTruthy, MCTSNode.expand, alookupD, alookup,
      exRoot1, exChild]
  have hchsel : select exDirichlet exSqrt 1 0 1 exChild 1 = ([exChild], [], 1) :=
    select_of_children_nil exDirichlet exSqrt 1 0 1 exChild 1 rfl
  have hsel : select exDirichlet exSqrt 1 0 1 exRoot1 0
      = ([exRoot1, exChild], [0], 1) := by
    rw [select_of_max_lookup exDirichlet exSqrt 1 0 1 exRoot1 exChild 0 0
      (by simp [exRoot1]) rfl rfl]
    norm_num [hchsel]
  have hstep2 : mctsStep exGame exEstimator exDirichlet exSqrt 1 0 1 (exRoot1, 0)
      = some (exTree2, 1) := by
    simp only [mctsStep]
    rw [hsel]
    dsimp only
    norm_num [List.getLastD_cons, List.getLastD_nil, exChild, exRoot1, exTree2,
      exGame, backup_tree, backup_node_update, pyTruthy, modifyChild]
  have hrun : mctsRun exDirichlet exSqrt exRoot exGame exEstimator 2 1 0 1 0
      = some (exTree2, 1) := by
    rw [mctsRun, show (2 : ℕ) = 1 + 1 from rfl, runLoop, hstep1]
    dsimp only
    rw [show (1 : ℕ) = 0 + 1 from rfl, runLoop, hstep2]
    dsimp only
    rw [runLoop]
  have hdist : mcts exDirichlet exSqrt exPow exRoot exGame exEstimator 2 1 1 0 1 0
      = some [(0, 1)] := by
    simp only [mcts]
    rw [hrun]
    dsimp only
    rw [show childNCounts exTree2 = [(0, (1 : ℚ))] by
      simp [childNCounts, exTree2]]
    norm_num [extremise_distribution, exPow, maxValues, minValues, sumValues]
  have hmain := claim_C2 exGame exEstimator exDirichlet exSqrt exPow 1 1 0 1
    exRoot 2 0 exTree2 1 [(0, 1)]
    (by simp [exRoot, MCTSNode.init]) (by simp [exRoot, MCTSNode.init])
    (by simp [exRoot, MCTSNode.init]) (by norm_num)
    (by simp [exGame, exRoot, MCTSNode.init]) hrun hdist
  exact ⟨hrun, hdist, hmain.1, hmain.2⟩
